import Mathlib

/-!
Verification development for the systax structure-classification library.

The definitions below are shallow embeddings of the Python sources
(systax/core/linkedunits.py, systax/symmetry/symmetryanalyzer.py,
systax/geometry/geometry.py).  Machine floats are modelled by exact
rationals, numpy arrays by lists or explicit 3-component structures,
dictionaries by association lists, and raised exceptions by Option or
Except values.  Comparisons of Euclidean norms against a threshold t are
encoded as (0 <= t and squared-norm <= t^2), which is equivalent to
(norm <= t) because norms are nonnegative.  Functions of the repository
that are only called from the embedded files but whose definitions are
not part of the sources (the neighbour-cell enumeration, the displacement
tensor, the Delaunay tetrahedra decomposition, the segfault-protected
symmetry oracle) are modelled from the specification as explicit
parameters, as noted in their doc comments.
-/

set_option allowUnsafeReducibility true

attribute [local semireducible] Rat.add Rat.sub Rat.mul Rat.inv Rat.div

namespace Systax

/-- A 3-component rational vector; models a numpy array of shape (3,). -/
structure Vec3 where
  x : ℚ
  y : ℚ
  z : ℚ
deriving DecidableEq, Repr

namespace Vec3

/-- Componentwise addition. -/
def add (a b : Vec3) : Vec3 := ⟨a.x + b.x, a.y + b.y, a.z + b.z⟩

/-- Componentwise subtraction. -/
def sub (a b : Vec3) : Vec3 := ⟨a.x - b.x, a.y - b.y, a.z - b.z⟩

/-- Squared Euclidean norm.  The sources compare np.linalg.norm(v) with a
threshold; we compare the square against the squared threshold instead. -/
def normSq (a : Vec3) : ℚ := a.x * a.x + a.y * a.y + a.z * a.z

/-- Dot product. -/
def dot (a b : Vec3) : ℚ := a.x * b.x + a.y * b.y + a.z * b.z

/-- Scalar multiple. -/
def smul (k : ℚ) (a : Vec3) : Vec3 := ⟨k * a.x, k * a.y, k * a.z⟩

end Vec3

/-- A 3x3 rational matrix in row-major layout; models a numpy array of
shape (3,3).  Row i of a cell matrix is the i-th lattice basis vector. -/
structure Mat3 where
  xx : ℚ
  xy : ℚ
  xz : ℚ
  yx : ℚ
  yy : ℚ
  yz : ℚ
  zx : ℚ
  zy : ℚ
  zz : ℚ
deriving DecidableEq, Repr

namespace Mat3

/-- First row. -/
def row0 (m : Mat3) : Vec3 := ⟨m.xx, m.xy, m.xz⟩

/-- Second row. -/
def row1 (m : Mat3) : Vec3 := ⟨m.yx, m.yy, m.yz⟩

/-- Third row. -/
def row2 (m : Mat3) : Vec3 := ⟨m.zx, m.zy, m.zz⟩

/-- Matrix transpose. -/
def transpose (m : Mat3) : Mat3 :=
  ⟨m.xx, m.yx, m.zx, m.xy, m.yy, m.zy, m.xz, m.yz, m.zz⟩

/-- Matrix product, models np.dot on (3,3) arrays. -/
def mul (a b : Mat3) : Mat3 :=
  ⟨a.xx * b.xx + a.xy * b.yx + a.xz * b.zx,
   a.xx * b.xy + a.xy * b.yy + a.xz * b.zy,
   a.xx * b.xz + a.xy * b.yz + a.xz * b.zz,
   a.yx * b.xx + a.yy * b.yx + a.yz * b.zx,
   a.yx * b.xy + a.yy * b.yy + a.yz * b.zy,
   a.yx * b.xz + a.yy * b.yz + a.yz * b.zz,
   a.zx * b.xx + a.zy * b.yx + a.zz * b.zx,
   a.zx * b.xy + a.zy * b.yy + a.zz * b.zy,
   a.zx * b.xz + a.zy * b.yz + a.zz * b.zz⟩

/-- Determinant. -/
def det (m : Mat3) : ℚ :=
  m.xx * (m.yy * m.zz - m.yz * m.zy)
    - m.xy * (m.yx * m.zz - m.yz * m.zx)
    + m.xz * (m.yx * m.zy - m.yy * m.zx)

/-- Scalar multiple of every entry; models numpy scalar broadcasting. -/
def smul (k : ℚ) (m : Mat3) : Mat3 :=
  ⟨k * m.xx, k * m.xy, k * m.xz, k * m.yx, k * m.yy, k * m.yz,
   k * m.zx, k * m.zy, k * m.zz⟩

/-- Apply a function to every entry. -/
def map (f : ℚ → ℚ) (m : Mat3) : Mat3 :=
  ⟨f m.xx, f m.xy, f m.xz, f m.yx, f m.yy, f m.yz, f m.zx, f m.zy, f m.zz⟩

/-- Matrix inverse by the adjugate formula; models np.linalg.inv.  On a
singular matrix numpy raises; here the rational division by a zero
determinant yields junk entries, and every use below is at an invertible
matrix. -/
def inv (m : Mat3) : Mat3 :=
  let d := m.det
  ⟨(m.yy * m.zz - m.yz * m.zy) / d,
   (m.xz * m.zy - m.xy * m.zz) / d,
   (m.xy * m.yz - m.xz * m.yy) / d,
   (m.yz * m.zx - m.yx * m.zz) / d,
   (m.xx * m.zz - m.xz * m.zx) / d,
   (m.xz * m.yx - m.xx * m.yz) / d,
   (m.yx * m.zy - m.yy * m.zx) / d,
   (m.xy * m.zx - m.xx * m.zy) / d,
   (m.xx * m.yy - m.xy * m.yx) / d⟩

/-- The identity matrix. -/
def one : Mat3 := ⟨1, 0, 0, 0, 1, 0, 0, 0, 1⟩

end Mat3

/-- Row-vector times matrix-transpose product: models
np.dot(d, cell.T) for a single displacement row d, whose k-th component
is the dot product of row k of the cell with d. -/
def rowDotCellT (cell : Mat3) (d : Vec3) : Vec3 :=
  ⟨cell.row0.dot d, cell.row1.dot d, cell.row2.dot d⟩

/-- Truth of (norm v <= t) encoded without square roots: equivalent to
(0 <= t and normSq v <= t^2) because the norm is nonnegative. -/
def normLe (v : Vec3) (t : ℚ) : Bool :=
  decide (0 ≤ t) && decide (v.normSq ≤ t * t)

/-! ## Chemical environments and chemical distance
Embeds LinkedUnitCollection.get_chemical_distance
(systax/core/linkedunits.py lines 229-240).  A chemical environment is a
dictionary from an atomic number to a neighbour count, modelled as an
association list of (species, count) items in dictionary order. -/

/-- Dictionary lookup on an environment: models dict.get, returning none
when the species key is absent. -/
def envGet (e : List (ℕ × ℕ)) (k : ℕ) : Option ℕ :=
  (e.find? (fun p => p.fst == k)).map Prod.snd

/-- Total count of an environment: models sum(ideal_env.values()). -/
def envTotal (e : List (ℕ × ℕ)) : ℕ := (e.map Prod.snd).sum

/-- The overlap score of get_chemical_distance: for every item of the
ideal environment whose key is present in the real environment, add the
minimum of the two counts. -/
def chemScore (ideal real : List (ℕ × ℕ)) : ℕ :=
  (ideal.map (fun p =>
    match envGet real p.fst with
    | none => 0
    | some rv => min rv p.snd)).sum

/-- Embedding of LinkedUnitCollection.get_chemical_distance.  The Python
code computes score/max_score; when max_score is zero this raises
ZeroDivisionError, modelled here as none. -/
def getChemicalDistance (ideal real : List (ℕ × ℕ)) : Option ℚ :=
  let maxScore := envTotal ideal
  if maxScore = 0 then none
  else some ((chemScore ideal real : ℚ) / (maxScore : ℚ))

/-! ## Tiling map insertion
Embeds LinkedUnitCollection.__setitem__
(systax/core/linkedunits.py lines 57-78). -/

/-- A key passed to __setitem__: either it can be converted by tuple()
into a sequence of integers, or the conversion raises TypeError. -/
inductive RawKey where
  | conv (elems : List ℤ)
  | inconv
deriving DecidableEq, Repr

/-- The errors __setitem__ can raise: TypeError from a failed tuple
conversion, ValueError for a key without exactly three components, and
ValueError for overwriting an existing unit. -/
inductive InsertErr where
  | typeErr
  | valueLenErr
  | valueOverwriteErr
deriving DecidableEq, Repr

/-- Embedding of LinkedUnitCollection.__setitem__.  The mapping is an
association list from 3-integer keys to units; the result pairs the
(possibly unchanged) mapping with the raised error, if any.  Python
raises before dict.__setitem__ runs, so on every error branch the
mapping is returned untouched. -/
def collSetItem {α : Type} (m : List (List ℤ × α)) (key : RawKey) (v : α) :
    List (List ℤ × α) × Option InsertErr :=
  match key with
  | RawKey.inconv => (m, some InsertErr.typeErr)
  | RawKey.conv k =>
    if k.length ≠ 3 then (m, some InsertErr.valueLenErr)
    else if m.any (fun p => p.fst == k) then (m, some InsertErr.valueOverwriteErr)
    else (m ++ [(k, v)], none)

/-! ## Symmetry dataset computation
Embeds SymmetryAnalyzer.get_symmetry_dataset
(systax/symmetry/symmetryanalyzer.py lines 559-584).  The function
segfault_protect is not part of the sources under src/.
Modelled from the spec: the oracle call runs inside an isolated fault
boundary whose abnormal termination surfaces as a catchable error
(a RuntimeError in the caller), and otherwise the oracle returns either
a dataset or None. -/

/-- Outcome of the segfault-protected spglib call: the worker aborted
(surfaced as RuntimeError), or it returned an optional dataset. -/
inductive OracleOutcome (α : Type) where
  | crash
  | res (r : Option α)
deriving DecidableEq, Repr

/-- The CellNormalizationError raised by get_symmetry_dataset, one
constructor per raise site. -/
inductive NormErr where
  | segfault
  | emptyResult
deriving DecidableEq, Repr

/-- Embedding of SymmetryAnalyzer.get_symmetry_dataset.  The state is the
cached dataset field; on success the dataset and the updated cache are
returned. -/
def getSymmetryDataset {α : Type} (cached : Option α) (oracle : OracleOutcome α) :
    Except NormErr (α × Option α) :=
  match cached with
  | some d => Except.ok (d, some d)
  | none =>
    match oracle with
    | OracleOutcome.crash => Except.error NormErr.segfault
    | OracleOutcome.res none => Except.error NormErr.emptyResult
    | OracleOutcome.res (some d) => Except.ok (d, some d)

/-! ## Conventional lattice fit
Embeds SymmetryAnalyzer.get_conventional_lattice_fit
(systax/symmetry/symmetryanalyzer.py lines 377-423). -/

/-- One step of the CPython Fraction.limit_denominator continued-fraction
loop, with explicit fuel.  The state is (p0, q0, p1, q1, n, d); the loop
stops when the next convergent denominator would exceed maxDen.  Python
floor division on integers is Int.fdiv. -/
def limitDenLoop (maxDen : ℕ) :
    ℕ → ℤ × ℤ × ℤ × ℤ × ℤ × ℤ → ℤ × ℤ × ℤ × ℤ × ℤ × ℤ
  | 0, st => st
  | fuel + 1, (p0, q0, p1, q1, n, d) =>
    let a := Int.fdiv n d
    let q2 := q0 + a * q1
    if q2 > (maxDen : ℤ) then (p0, q0, p1, q1, n, d)
    else limitDenLoop maxDen fuel (p1, q1, p0 + a * p1, q2, d, n - a * d)

/-- Embedding of fractions.Fraction.limit_denominator from the Python
standard library, called by get_conventional_lattice_fit with
max_denominator 10: the closest fraction to q with denominator at most
maxDen (ties towards the upper principal convergent, as in CPython).
The fuel q.den bounds the number of continued-fraction steps. -/
def limitDenominator (q : ℚ) (maxDen : ℕ) : ℚ :=
  if q.den ≤ maxDen then q
  else
    match limitDenLoop maxDen q.den (0, 1, 1, 0, (q.num : ℤ), (q.den : ℤ)) with
    | (p0, q0, p1, q1, _, _) =>
      let k := Int.fdiv ((maxDen : ℤ) - q0) q1
      let bound1 : ℚ := ((p0 + k * p1 : ℤ) : ℚ) / ((q0 + k * q1 : ℤ) : ℚ)
      let bound2 : ℚ := ((p1 : ℤ) : ℚ) / ((q1 : ℤ) : ℚ)
      if |bound2 - q| ≤ |bound1 - q| then bound2 else bound1

/-- Embedding of SymmetryAnalyzer.get_conventional_lattice_fit: express
the conventional cell in the basis of the original cell, round every
coefficient to the nearest fraction with denominator at most 10,
reconstruct the lattice from the rounded coefficients, and finally
multiply the whole matrix by factor = (volume per atom of the original
structure) / (volume per atom of the reconstructed lattice).  The cell
volume of ase.Atoms.get_volume is the absolute determinant. -/
def conventionalLatticeFit (origCell convCell : Mat3) (nOrig nConv : ℕ) : Mat3 :=
  let coeff0 := convCell.mul origCell.transpose.inv
  let coeff := coeff0.map (fun q => limitDenominator q 10)
  let newStd := coeff.mul origCell
  let volOrig := |origCell.det|
  let volConv := |newStd.det|
  let vpaOrig := volOrig / (nOrig : ℚ)
  let vpaConv := volConv / (nConv : ℚ)
  let factor := vpaOrig / vpaConv
  Mat3.smul factor newStd

/-! ## Free Wyckoff parameters: trial resolution and selection
Embeds the free-variable part of SymmetryAnalyzer._get_wyckoff_groups
(systax/symmetry/symmetryanalyzer.py lines 1252-1367), together with
get_wrapped_positions (systax/geometry/geometry.py lines 234-252) and
_search_periodic_positions (symmetryanalyzer.py lines 926-976). -/

/-- The free coordinate variables of a tabulated Wyckoff expression. -/
inductive Var where
  | x
  | y
  | z
deriving DecidableEq, Repr

/-- A tabulated coordinate expression, the restricted grammar accepted by
eval_expr in _get_wyckoff_groups: numeric literals, the declared free
variables, binary add, sub, mul, truediv and unary negation. -/
inductive Wexpr where
  | num (q : ℚ)
  | var (v : Var)
  | add (a b : Wexpr)
  | sub (a b : Wexpr)
  | mul (a b : Wexpr)
  | dvd (a b : Wexpr)
  | neg (a : Wexpr)
deriving DecidableEq, Repr

/-- Evaluate a coordinate expression under a partial assignment of the
free variables.  A variable without a value models a leftover name in
the string handed to eval_expr, which raises there; the crash is
propagated as none.  The tabulated divisors are nonzero literals, so the
total rational division matches Python division on every reachable
input. -/
def evalWexpr (env : Var → Option ℚ) : Wexpr → Option ℚ
  | Wexpr.num q => some q
  | Wexpr.var v => env v
  | Wexpr.add a b =>
    match evalWexpr env a, evalWexpr env b with
    | some r, some s => some (r + s)
    | _, _ => none
  | Wexpr.sub a b =>
    match evalWexpr env a, evalWexpr env b with
    | some r, some s => some (r - s)
    | _, _ => none
  | Wexpr.mul a b =>
    match evalWexpr env a, evalWexpr env b with
    | some r, some s => some (r * s)
    | _, _ => none
  | Wexpr.dvd a b =>
    match evalWexpr env a, evalWexpr env b with
    | some r, some s => some (r / s)
    | _, _ => none
  | Wexpr.neg a =>
    match evalWexpr env a with
    | some r => some (-r)
    | none => none

/-- Evaluate the three coordinate expressions of one tabulated position. -/
def evalExprTriple (env : Var → Option ℚ) (e : Wexpr × Wexpr × Wexpr) : Option Vec3 :=
  match evalWexpr env e.1, evalWexpr env e.2.1, evalWexpr env e.2.2 with
  | some a, some b, some c => some ⟨a, b, c⟩
  | _, _, _ => none

/-- Embedding of systax.geometry.get_wrapped_positions on one coordinate
with the default precision 1e-5: reduce modulo 1 into the interval
from 0 inclusive to 1 exclusive, then snap values within the precision
of 0 or of 1 to 0. -/
def wrapCoord (q : ℚ) : ℚ :=
  let m := q - (Int.floor q : ℚ)
  if |m| < 1 / 100000 then 0
  else if |m - 1| < 1 / 100000 then 0
  else m

/-- Componentwise get_wrapped_positions. -/
def wrapVec (v : Vec3) : Vec3 := ⟨wrapCoord v.x, wrapCoord v.y, wrapCoord v.z⟩

/-- The minimum-image wrap used in _search_periodic_positions: coordinate
differences above one half are shifted down by one, below minus one half
up by one. -/
def wrapDispCoord (c : ℚ) : ℚ :=
  if c > 1 / 2 then c - 1 else if c < -(1 / 2) then c + 1 else c

/-- Squared cartesian distance of one candidate position from the target
as computed by _search_periodic_positions: relative displacement,
minimum-image wrap, conversion to cartesian coordinates with the cell,
then the (squared) norm. -/
def periodicDistSq (cell : Mat3) (targetPos p : Vec3) : ℚ :=
  let d := Vec3.sub p targetPos
  let dw : Vec3 := ⟨wrapDispCoord d.x, wrapDispCoord d.y, wrapDispCoord d.z⟩
  (rowDotCellT cell dw).normSq

/-- One step of the first-occurrence argmin scan: the accumulator is
(best index, best value, next index). -/
def argminStep (acc : ℕ × ℚ × ℕ) (v : ℚ) : ℕ × ℚ × ℕ :=
  if v < acc.2.1 then (acc.2.2, v, acc.2.2 + 1) else (acc.1, acc.2.1, acc.2.2 + 1)

/-- Embedding of SymmetryAnalyzer._search_periodic_positions: find the
candidate closest to the target under the minimum-image convention (the
first such index, as np.argmin returns it) and return its index when
that minimum cartesian distance is within the accuracy.  The norm
comparison is encoded on squares; an empty candidate list, on which
numpy raises, yields none. -/
def searchPeriodicPositions (targetPos : Vec3) (positions : List Vec3) (cell : Mat3)
    (accuracy : ℚ) : Option ℕ :=
  let dists := positions.map (fun p => periodicDistSq cell targetPos p)
  match dists with
  | [] => none
  | d :: rest =>
    let best := rest.foldl argminStep (0, d, 1)
    if 0 ≤ accuracy ∧ best.2.1 ≤ accuracy * accuracy then some best.1 else none

/-- Lookup in a values dictionary (an association list from free
variables to rationals). -/
def varLookup (vs : List (Var × ℚ)) (v : Var) : Option ℚ :=
  (vs.find? (fun p => p.fst == v)).map Prod.snd

/-- The trial values dictionary built for one member atom in
_get_wyckoff_groups (lines 1274-1281): every declared free variable is
assigned the matching fractional coordinate of the atom, in declaration
order. -/
def trialValues (variablesPresent : List Var) (pos : Vec3) : List (Var × ℚ) :=
  variablesPresent.map (fun v =>
    (v, match v with
        | Var.x => pos.x
        | Var.y => pos.y
        | Var.z => pos.z))

/-- The check of one later coordinate expression in the trial loop
(lines 1297-1316): its value is evaluated and wrapped, but the position
matched against the group members is evaluatedPos, the wrapped value of
the FIRST expression, exactly as in the source (eval_pos is computed and
then unused there).  An evaluation crash propagates as none. -/
def laterExprCheck (indices : List ℕ) (positions : ℕ → Vec3) (cell : Mat3)
    (precision : ℚ) (env : Var → Option ℚ) (evaluatedPos : Vec3)
    (okAcc : Option Bool) (e : Wexpr × Wexpr × Wexpr) : Option Bool :=
  match okAcc with
  | none => none
  | some ok =>
    match evalExprTriple env e with
    | none => none
    | some evp =>
      let _evalPos := wrapVec evp
      let matched := indices.any (fun m =>
        (searchPeriodicPositions evaluatedPos [positions m] cell precision).isSome)
      some (ok && matched)

/-- One member atom of the trial loop (lines 1269-1319): substitute its
own coordinates for the free variables into the first tabulated
expression; when the wrapped result matches the atom itself within the
precision, run the later-expression checks and, when all pass, append
the trial values dictionary to the collected list. -/
def trialStep (indices : List ℕ) (positions : ℕ → Vec3) (cell : Mat3) (precision : ℚ)
    (e0 : Wexpr × Wexpr × Wexpr) (laterExprs : List (Wexpr × Wexpr × Wexpr))
    (variablesPresent : List Var)
    (acc : Option (List (List (Var × ℚ)))) (atomIndex : ℕ) :
    Option (List (List (Var × ℚ))) :=
  match acc with
  | none => none
  | some collected =>
    let pos := positions atomIndex
    let values := trialValues variablesPresent pos
    let env := fun v => varLookup values v
    match evalExprTriple env e0 with
    | none => none
    | some ev0 =>
      let evaluatedPos := wrapVec ev0
      if (searchPeriodicPositions evaluatedPos [pos] cell precision).isSome then
        match laterExprs.foldl
            (laterExprCheck indices positions cell precision env evaluatedPos)
            (some true) with
        | none => none
        | some ok => if ok then some (collected ++ [values]) else some collected
      else some collected

/-- Embedding of the trial-collection loop of _get_wyckoff_groups for one
Wyckoff group with free variables (lines 1269-1319): the list of trial
value dictionaries that pass, in member order.  An empty expression
table raises IndexError on coordinate_expressions[0]; any crash is
none. -/
def collectTrialValueSets (indices : List ℕ) (positions : ℕ → Vec3) (cell : Mat3)
    (precision : ℚ) (exprs : List (Wexpr × Wexpr × Wexpr))
    (variablesPresent : List Var) : Option (List (List (Var × ℚ))) :=
  match exprs with
  | [] => none
  | e0 :: laterExprs =>
    indices.foldl (trialStep indices positions cell precision e0 laterExprs variablesPresent)
      (some [])

/-! ## Selection among multiple resolved variable sets
Embeds lines 1336-1364 of _get_wyckoff_groups. -/

/-- Strict lexicographic order on rational rows with the FIRST component
most significant. -/
def lexLtQ : List ℚ → List ℚ → Bool
  | [], [] => false
  | [], _ :: _ => true
  | _ :: _, [] => false
  | a :: as, b :: bs => if a < b then true else if b < a then false else lexLtQ as bs

/-- First index of the row that is smallest when rows are compared with
the LAST component most significant.  This is np.lexsort(columns)[0]:
the numpy documentation states that the last key of the sequence is the
primary sort key, and the sort is stable, so index 0 of the sorted order
is the first occurrence of the row minimal in that reversed-key order. -/
def lexsortFirstIndex (rows : List (List ℚ)) : ℕ :=
  match rows with
  | [] => 0
  | r :: rs =>
    (rs.foldl
      (fun (acc : ℕ × List ℚ × ℕ) row =>
        if lexLtQ row.reverse acc.2.1.reverse then (acc.2.2, row, acc.2.2 + 1)
        else (acc.1, acc.2.1, acc.2.2 + 1))
      (0, r, 1)).1

/-- The inversion_variables row built from one values dictionary (lines
1344-1354): the values of x, y, z that are present, in that order. -/
def inversionRow (vs : List (Var × ℚ)) : List ℚ :=
  [Var.x, Var.y, Var.z].filterMap (fun v => varLookup vs v)

/-- Embedding of the multiple-solution selection (lines 1336-1364): build
the value rows, apply np.lexsort to the per-variable columns (x first in
the key sequence, making z the primary key), and adopt the values
dictionary at the first sorted index. -/
def chooseVariableSet (variablesValues : List (List (Var × ℚ))) : List (Var × ℚ) :=
  let rows := variablesValues.map inversionRow
  variablesValues.getD (lexsortFirstIndex rows) []

/-- First index of the row that is smallest in the lexicographic order
with x most significant, then y, then z; written from the words of the
specification for comparison with chooseVariableSet. -/
def xFirstIndex (rows : List (List ℚ)) : ℕ :=
  match rows with
  | [] => 0
  | r :: rs =>
    (rs.foldl
      (fun (acc : ℕ × List ℚ × ℕ) row =>
        if lexLtQ row acc.2.1 then (acc.2.2, row, acc.2.2 + 1)
        else (acc.1, acc.2.1, acc.2.2 + 1))
      (0, r, 1)).1

/-- The selection the specification describes: the lexicographically
smallest ordered tuple with x as the most significant component. -/
def specChooseVariableSet (variablesValues : List (List (Var × ℚ))) : List (Var × ℚ) :=
  let rows := variablesValues.map inversionRow
  variablesValues.getD (xFirstIndex rows) []

/-- The outcome of the free-variable resolution for one group (lines
1321-1367): zero passing trial sets raise the resolution error, one is
adopted directly, several go through the lexsort selection.  The outer
none is a crash of the trial loop itself. -/
def resolveFreeParameters (indices : List ℕ) (positions : ℕ → Vec3) (cell : Mat3)
    (precision : ℚ) (exprs : List (Wexpr × Wexpr × Wexpr))
    (variablesPresent : List Var) : Option (Except Unit (List (Var × ℚ))) :=
  (collectTrialValueSets indices positions cell precision exprs variablesPresent).map
    (fun sets =>
      match sets with
      | [] => Except.error ()
      | [vs] => Except.ok vs
      | _ => Except.ok (chooseVariableSet sets))

/-! ## The defect classification engine
Embeds LinkedUnitCollection (systax/core/linkedunits.py).  The helper
functions get_neighbour_cells, get_displacement_tensor, get_clusters and
get_tetrahedra_decomposition that linkedunits.py imports from
systax.geometry are not part of the sources under src/ (the geometry.py
present there does not define them); their outputs are modelled from the
specification as explicit fields of the collection, as noted below. -/

/-- A substitutional point defect record (linkedunits.py lines 482-496). -/
structure SubstitutionRec where
  index : ℕ
  originalElement : ℕ
  substitutionalElement : ℕ
deriving DecidableEq, Repr

/-- A vacancy record: the expected cartesian position of the missing
atom (the only field get_vacancies reads). -/
structure VacancyRec where
  position : Vec3
deriving DecidableEq, Repr

/-- One repeated cell of the tiling (linkedunits.py lines 454-479): an
optional atom index per prototype basis slot, plus the detected
substitutions and vacancies.  The index, seed and cell fields of the
Python constructor are never read by the collection and are omitted. -/
structure LinkedUnit where
  basisIndices : List (Option ℕ)
  substitutions : List SubstitutionRec
  vacancies : List VacancyRec
deriving DecidableEq, Repr

/-- The immutable configuration of a LinkedUnitCollection: the arguments
of __init__ and the spec-modelled external collaborators.

Modelled from the spec, because their definitions are not under src/:
cellDisp (the displacement tensor of the prototype cell, finite
differences of positions), cellTvecs / sysTranslations (the lattice
translations returned by the neighbour-cell enumeration for the cutoff
of largest covalent radius plus bond threshold, including the origin
translation, with the Reduced variants excluding it), radii (the
ase.data covalent radii table), and findSimplexOracle (the Delaunay
tetrahedra decomposition: from the list of retained points and the
maximum allowed tetrahedron edge length, a membership oracle returning
the simplex containing a position, if any). -/
structure Collection where
  nAtoms : ℕ
  sysNumbers : ℕ → ℕ
  sysPositions : ℕ → Vec3
  cellNumbers : List ℕ
  cellDisp : ℕ → ℕ → Vec3
  isTwoD : Bool
  delaunayThreshold : ℚ
  bondThreshold : ℚ
  dispTensorFinite : ℕ → ℕ → Vec3
  radii : ℕ → ℚ
  cellTvecs : List Vec3
  cellTvecsReduced : List Vec3
  sysTranslations : List Vec3
  sysTranslationsReduced : List Vec3
  findSimplexOracle : List Vec3 → ℚ → Vec3 → Option ℕ
  units : List LinkedUnit

/-- Add a count to a species key of an environment dictionary, creating
the key at the end when absent: defaultdict accumulation in insertion
order. -/
def envAdd (e : List (ℕ × ℕ)) (k cnt : ℕ) : List (ℕ × ℕ) :=
  if e.any (fun p => p.fst == k) then
    e.map (fun p => if p.fst == k then (p.fst, p.snd + cnt) else p)
  else e ++ [(k, cnt)]

/-- Embedding of LinkedUnitCollection.get_chemical_environment (lines
193-227): for every atom j of the system, count the translated copies
(the reduced translation list for j equal to the seed index) whose
displacement from the seed has norm at most the two covalent radii plus
the bond threshold, and accumulate the counts by the species of j. -/
def getChemicalEnvironment (numbers : ℕ → ℕ) (nAtoms : ℕ) (index : ℕ)
    (dispTensor : ℕ → ℕ → Vec3) (translations translationsReduced : List Vec3)
    (bondThreshold : ℚ) (radii : ℕ → ℚ) : List (ℕ × ℕ) :=
  let seedNum := numbers index
  (List.range nAtoms).foldl
    (fun e j =>
      let jNum := numbers j
      let ijDisp := dispTensor index j
      let trans := if index = j then translationsReduced else translations
      let rsum := radii seedNum + radii jNum + bondThreshold
      let cnt := ((trans.map (fun t => Vec3.add t ijDisp)).filter
        (fun v => normLe v rsum)).length
      envAdd e jNum cnt)
    []

/-- Embedding of get_basis_atom_neighbourhood (lines 97-139): the ideal
chemical environment of every atom of the prototype cell, using the
spec-modelled translations of the cell. -/
def getBasisAtomNeighbourhood (c : Collection) : List (List (ℕ × ℕ)) :=
  (List.range c.cellNumbers.length).map (fun i =>
    getChemicalEnvironment (fun j => c.cellNumbers.getD j 0) c.cellNumbers.length i
      c.cellDisp c.cellTvecs c.cellTvecsReduced c.bondThreshold c.radii)

/-- The real chemical environment of one atom of the full system, as
get_basis_indices computes it (line 176). -/
def realEnvironment (c : Collection) (index : ℕ) : List (ℕ × ℕ) :=
  getChemicalEnvironment c.sysNumbers c.nAtoms index c.dispTensorFinite
    c.sysTranslations c.sysTranslationsReduced c.bondThreshold c.radii

/-- One basis slot of one unit in the filter loop of get_basis_indices
(lines 174-183): an occupied slot whose real environment has chemical
distance at least 0.4 from the ideal slot environment joins the basis
set.  A missing ideal slot (IndexError) or a zero-total ideal
environment (ZeroDivisionError) crashes, modelled as none. -/
def basisScanSlot (c : Collection) (neighbourMap : List (List (ℕ × ℕ)))
    (acc : Option (Finset ℕ)) (slot : ℕ × Option ℕ) : Option (Finset ℕ) :=
  match acc with
  | none => none
  | some s =>
    match slot.snd with
    | none => some s
    | some index =>
      let realEnv := realEnvironment c index
      match neighbourMap.get? slot.fst with
      | none => none
      | some idealEnv =>
        match getChemicalDistance idealEnv realEnv with
        | none => none
        | some dist => if 2 / 5 ≤ dist then some (insert index s) else some s

/-- Embedding of the computation inside get_basis_indices (lines
162-188): scan every basis slot of every unit through the chemical
filter.  The collected indices form a set. -/
def getBasisIndicesCompute (c : Collection) : Option (Finset ℕ) :=
  let nm := getBasisAtomNeighbourhood c
  c.units.foldl (fun acc u => u.basisIndices.enum.foldl (basisScanSlot c nm) acc) (some ∅)

/-- Embedding of get_invalid_indices (lines 242-250): all atom indices
not in the basis set. -/
def invalidOf (c : Collection) (basis : Finset ℕ) : Finset ℕ :=
  Finset.range c.nAtoms \ basis

/-- Ascending enumeration of a set of atom indices below n.  Python
iterates a set of small integers here; the iteration order is modelled
as ascending. -/
def ascList (n : ℕ) (s : Finset ℕ) : List ℕ :=
  (List.range n).filter (fun i => decide (i ∈ s))

/-- The positions handed to the tetrahedra decomposition: the system
positions of the basis atoms, in ascending index order. -/
def basisPositions (c : Collection) (basis : Finset ℕ) : List Vec3 :=
  (ascList c.nAtoms basis).map c.sysPositions

/-- The simplex-membership function of get_tetrahedra_decomposition for
a given basis set, through the spec-modelled oracle. -/
def decompositionOf (c : Collection) (basis : Finset ℕ) : Vec3 → Option ℕ :=
  c.findSimplexOracle (basisPositions c basis) c.delaunayThreshold

/-- Embedding of the computation inside get_inside_and_outside_indices
(lines 432-449): the non-basis indices are split by whether the
tesselation finds a simplex containing their position; with no invalid
indices both lists stay empty and the decomposition is not built. -/
def insideOutsideCompute (c : Collection) (basis : Finset ℕ) : List ℕ × List ℕ :=
  let invalid := ascList c.nAtoms (invalidOf c basis)
  if invalid.isEmpty then ([], [])
  else
    let decomp := decompositionOf c basis
    (invalid.filter (fun i => (decomp (c.sysPositions i)).isSome),
     invalid.filter (fun i => (decomp (c.sysPositions i)).isNone))

/-- All substitution records gathered from the units (lines 329-334). -/
def allSubstitutions (c : Collection) : List SubstitutionRec :=
  c.units.flatMap (fun u => u.substitutions)

/-- Embedding of the computation inside get_substitutions (lines
327-353): in a 2D material every recorded substitution is valid,
otherwise only those whose index lies inside the tesselation. -/
def substitutionsCompute (c : Collection) (inside : List ℕ) : List SubstitutionRec :=
  if c.isTwoD then allSubstitutions c
  else (allSubstitutions c).filter (fun s => s.index ∈ inside)

/-- Embedding of the computation inside get_adsorbates (lines 293-320):
the outside indices, with the substitution indices removed first for 2D
materials (the set difference is modelled in ascending order). -/
def adsorbatesCompute (c : Collection) (outside : List ℕ)
    (substs : List SubstitutionRec) : List ℕ :=
  if c.isTwoD then
    ascList c.nAtoms (outside.toFinset \ (substs.map SubstitutionRec.index).toFinset)
  else outside

/-- Embedding of the computation inside get_interstitials (lines
252-263): the inside indices that are not substitution indices. -/
def interstitialsCompute (inside : List ℕ) (substs : List SubstitutionRec) : Finset ℕ :=
  inside.toFinset \ (substs.map SubstitutionRec.index).toFinset

/-- Embedding of the computation inside get_unknowns (lines 390-403):
every atom index not in the basis, interstitial, adsorbate or
substitution sets. -/
def unknownsCompute (c : Collection) (basis : Finset ℕ) (inter : Finset ℕ)
    (ads : List ℕ) (substs : List SubstitutionRec) : Finset ℕ :=
  Finset.range c.nAtoms \
    (basis ∪ inter ∪ ads.toFinset ∪ (substs.map SubstitutionRec.index).toFinset)

/-- Embedding of the computation inside get_vacancies (lines 363-386):
in a 2D material every recorded vacancy is valid, otherwise only those
whose expected position lies inside the tesselation. -/
def vacanciesCompute (c : Collection) (basis : Finset ℕ) : List VacancyRec :=
  let all := c.units.flatMap (fun u => u.vacancies)
  if c.isTwoD then all
  else all.filter (fun v => ((decompositionOf c basis) v.position).isSome)

/-- The five derived classification index sets, in the order basis,
interstitials, adsorbates, substitution indices, unknowns, computed from
a basis set as the accessors compute them.  Vacancies are records of
missing atoms and carry no atom index of the system. -/
def partitionSets (c : Collection) (b : Finset ℕ) : List (Finset ℕ) :=
  let io := insideOutsideCompute c b
  let subs := substitutionsCompute c io.1
  [b,
   interstitialsCompute io.1 subs,
   (adsorbatesCompute c io.2 subs).toFinset,
   (subs.map SubstitutionRec.index).toFinset,
   unknownsCompute c b (interstitialsCompute io.1 subs) (adsorbatesCompute c io.2 subs) subs]

/-! ### The cached accessors
The fields set to None in __init__ (lines 47-54), and the accessors with
their compute-once caching.  Every accessor returns its value, the
updated cache, and a count that is 1 exactly when the body computing its
own derived value ran (0 on a cache hit); a crash in a callee is
propagated as none. -/

/-- The cache fields of LinkedUnitCollection.__init__ (lines 47-54).
There is no field for interstitials or unknowns. -/
structure CollCache where
  decomposition : Option (Vec3 → Option ℕ)
  insideIndices : Option (List ℕ)
  outsideIndices : Option (List ℕ)
  adsorbates : Option (List ℕ)
  substitutions : Option (List SubstitutionRec)
  vacancies : Option (List VacancyRec)
  clusters : Option (List (Finset ℕ))
  basisIndices : Option (Finset ℕ)

/-- The cache right after __init__: every field is None. -/
def emptyCache : CollCache := ⟨none, none, none, none, none, none, none, none⟩

/-- Embedding of get_basis_indices (lines 141-191) with its caching. -/
def getBasisIndicesM (c : Collection) (st : CollCache) :
    Option (Finset ℕ × CollCache × ℕ) :=
  match st.basisIndices with
  | some v => some (v, st, 0)
  | none =>
    (getBasisIndicesCompute c).map (fun v => (v, { st with basisIndices := some v }, 1))

/-- Embedding of get_tetrahedra_decomposition (lines 405-419) with its
caching. -/
def getTetrahedraDecompositionM (c : Collection) (st : CollCache) :
    Option ((Vec3 → Option ℕ) × CollCache × ℕ) :=
  match st.decomposition with
  | some f => some (f, st, 0)
  | none =>
    match getBasisIndicesM c st with
    | none => none
    | some (b, st1, _) =>
      let f := decompositionOf c b
      some (f, { st1 with decomposition := some f }, 1)

/-- Embedding of get_inside_and_outside_indices (lines 424-451) with its
caching; the two fields are written together in the source, and the
compute branch runs exactly when both are still None. -/
def getInsideOutsideM (c : Collection) (st : CollCache) :
    Option ((List ℕ × List ℕ) × CollCache × ℕ) :=
  match st.insideIndices, st.outsideIndices with
  | some a, some b => some ((a, b), st, 0)
  | _, _ =>
    match getBasisIndicesM c st with
    | none => none
    | some (b, st1, _) =>
      let invalid := ascList c.nAtoms (invalidOf c b)
      if invalid.isEmpty then
        some (([], []), { st1 with insideIndices := some [], outsideIndices := some [] }, 1)
      else
        match getTetrahedraDecompositionM c st1 with
        | none => none
        | some (decomp, st2, _) =>
          let ins := invalid.filter (fun i => (decomp (c.sysPositions i)).isSome)
          let outs := invalid.filter (fun i => (decomp (c.sysPositions i)).isNone)
          some ((ins, outs),
            { st2 with insideIndices := some ins, outsideIndices := some outs }, 1)

/-- Embedding of get_substitutions (lines 324-354) with its caching. -/
def getSubstitutionsM (c : Collection) (st : CollCache) :
    Option (List SubstitutionRec × CollCache × ℕ) :=
  match st.substitutions with
  | some v => some (v, st, 0)
  | none =>
    if c.isTwoD then
      some (allSubstitutions c, { st with substitutions := some (allSubstitutions c) }, 1)
    else
      match getInsideOutsideM c st with
      | none => none
      | some ((ins, _), st1, _) =>
        let valid := (allSubstitutions c).filter (fun s => s.index ∈ ins)
        some (valid, { st1 with substitutions := some valid }, 1)

/-- Embedding of get_vacancies (lines 356-388) with its caching. -/
def getVacanciesM (c : Collection) (st : CollCache) :
    Option (List VacancyRec × CollCache × ℕ) :=
  match st.vacancies with
  | some v => some (v, st, 0)
  | none =>
    let all := c.units.flatMap (fun u => u.vacancies)
    if c.isTwoD then
      some (all, { st with vacancies := some all }, 1)
    else
      match getTetrahedraDecompositionM c st with
      | none => none
      | some (decomp, st1, _) =>
        let valid := all.filter (fun v => (decomp v.position).isSome)
        some (valid, { st1 with vacancies := some valid }, 1)

/-- Embedding of get_adsorbates (lines 280-322) with its caching. -/
def getAdsorbatesM (c : Collection) (st : CollCache) :
    Option (List ℕ × CollCache × ℕ) :=
  match st.adsorbates with
  | some v => some (v, st, 0)
  | none =>
    match getInsideOutsideM c st with
    | none => none
    | some ((_, outs), st1, _) =>
      if c.isTwoD then
        match getSubstitutionsM c st1 with
        | none => none
        | some (subs, st2, _) =>
          let ads := ascList c.nAtoms (outs.toFinset \ (subs.map SubstitutionRec.index).toFinset)
          some (ads, { st2 with adsorbates := some ads }, 1)
      else
        some (outs, { st1 with adsorbates := some outs }, 1)

/-- Embedding of get_interstitials (lines 252-263).  The source has no
cache field for this set: every call rebuilds it from the (cached)
inside indices and substitutions, so the count is always 1. -/
def getInterstitialsM (c : Collection) (st : CollCache) :
    Option (Finset ℕ × CollCache × ℕ) :=
  match getInsideOutsideM c st with
  | none => none
  | some ((ins, _), st1, _) =>
    match getSubstitutionsM c st1 with
    | none => none
    | some (subs, st2, _) =>
      some (interstitialsCompute ins subs, st2, 1)

/-- Embedding of get_unknowns (lines 390-403).  The source has no cache
field for this set either: every call rebuilds it, so the count is
always 1. -/
def getUnknownsM (c : Collection) (st : CollCache) :
    Option (Finset ℕ × CollCache × ℕ) :=
  match getBasisIndicesM c st with
  | none => none
  | some (b, st1, _) =>
    match getInterstitialsM c st1 with
    | none => none
    | some (inter, st2, _) =>
      match getAdsorbatesM c st2 with
      | none => none
      | some (ads, st3, _) =>
        match getSubstitutionsM c st3 with
        | none => none
        | some (subs, st4, _) =>
          some (unknownsCompute c b inter ads subs, st4, 1)

/-! ## Ground-state Wyckoff disambiguation
Embeds the candidate-selection part of
SymmetryAnalyzer._find_wyckoff_ground_state
(systax/symmetry/symmetryanalyzer.py lines 1014-1086).  Wyckoff letters
are coded as naturals whose numeric order is the alphabetical order;
a candidate transformation is represented by its letter-permutation
dictionary (an association list).  A representation is identified by its
position in the transformation list, and its Wyckoff-position dictionary
is recovered from the counting construction of lines 1023-1037. -/

/-- Dictionary lookup in a letter permutation: models perm.get(old_w). -/
def permGet (perm : List (ℕ × ℕ)) (w : ℕ) : Option ℕ :=
  (perm.find? (fun p => p.fst == w)).map Prod.snd

/-- The Wyckoff-position count of one representation at key (w, z): the
number of atoms whose permuted letter is w and whose atomic number is z
(lines 1026-1036).  The dictionary holds exactly the keys with a
positive count. -/
def repCount (perm : List (ℕ × ℕ)) (oldLetters numbers : List ℕ) (w z : ℕ) : ℕ :=
  ((oldLetters.zip numbers).filter
    (fun p => permGet perm p.fst == some w && p.snd == z)).length

/-- The key list of one representation dictionary, in insertion order:
the per-atom keys (permuted letter, atomic number) with duplicates
removed at later occurrences. -/
def repKeyList (perm : List (ℕ × ℕ)) (oldLetters numbers : List ℕ) : List (ℕ × ℕ) :=
  ((oldLetters.zip numbers).filterMap
    (fun p => (permGet perm p.fst).map (fun w => (w, p.snd)))).dedup

/-- The sorted set of Wyckoff letters available in any representation:
all values of all permutation dictionaries (lines 1040-1046). -/
def allPermValues (perms : List (List (ℕ × ℕ))) : List ℕ :=
  ((perms.flatMap (fun perm => perm.map Prod.snd)).toFinset).sort (· ≤ ·)

/-- The sorted set of atomic numbers of the system (lines 1048-1050). -/
def sortedNumbersList (numbers : List ℕ) : List ℕ :=
  numbers.toFinset.sort (· ≤ ·)

/-- The count function of the representation at position r of the
transformation list. -/
def countsOf (perms : List (List (ℕ × ℕ))) (oldLetters numbers : List ℕ)
    (r w z : ℕ) : ℕ :=
  repCount (perms.getD r []) oldLetters numbers w z

/-- One narrowing step of the selection loop (lines 1059-1068): group
the candidates holding the key (w, z) by their count there; when some
candidate holds the key, keep exactly the candidates achieving the
maximum count (a candidate without the key has count zero and is
dropped then). -/
def narrowStep (counts : ℕ → ℕ → ℕ → ℕ) (reps : List ℕ) (w z : ℕ) : List ℕ :=
  let present := reps.filter (fun r => counts r w z != 0)
  let maxN := (present.map (fun r => counts r w z)).foldl max 0
  if maxN = 0 then reps else reps.filter (fun r => counts r w z == maxN)

/-- The inner species loop over one Wyckoff letter (lines 1058-1071):
narrow at every (w, z) key and record in the flag whether the candidate
list reached length one after some step; the source checks the flag only
at the head of the letter loop, so the species loop always runs to the
end. -/
def letterPassRec (counts : ℕ → ℕ → ℕ → ℕ) (w : ℕ) :
    List ℕ → List ℕ → Bool → List ℕ × Bool
  | [], reps, found => (reps, found)
  | z :: zs, reps, found =>
    let reps2 := narrowStep counts reps w z
    letterPassRec counts w zs reps2 (found || (reps2.length == 1))

/-- The outer letter loop (lines 1055-1071): process the species loop of
each letter in alphabetical order, stopping before the next letter once
the flag is set. -/
def narrowLoop (counts : ℕ → ℕ → ℕ → ℕ) (zs : List ℕ) :
    List ℕ → List ℕ → List ℕ
  | [], reps => reps
  | w :: ws, reps =>
    let pr := letterPassRec counts w zs reps false
    if pr.2 then pr.1 else narrowLoop counts zs ws pr.1

/-- The errors of the post-narrowing consistency check: the SystaxError
raised when two surviving dictionaries disagree, and the Python KeyError
that i_wyckoffs[key] raises when the key is absent from a surviving
dictionary of the same size. -/
inductive GroundStateErr where
  | ambiguous
  | keyErr
deriving DecidableEq, Repr

/-- The check of one surviving representation r against the first
survivor r0 (lines 1076-1085): first the dictionary sizes are compared,
then every key of the first dictionary is looked up in r and the counts
are compared; the first failure raises. -/
def checkOneRep (perms : List (List (ℕ × ℕ))) (oldLetters numbers : List ℕ)
    (r0 r : ℕ) : Option GroundStateErr :=
  let keys0 := repKeyList (perms.getD r0 []) oldLetters numbers
  let keysR := repKeyList (perms.getD r []) oldLetters numbers
  if keysR.length ≠ keys0.length then some GroundStateErr.ambiguous
  else
    keys0.findSome? (fun k =>
      let vr := countsOf perms oldLetters numbers r k.fst k.snd
      let v0 := countsOf perms oldLetters numbers r0 k.fst k.snd
      if vr = 0 then some GroundStateErr.keyErr
      else if vr ≠ v0 then some GroundStateErr.ambiguous
      else none)

/-- Embedding of the candidate selection of _find_wyckoff_ground_state
(lines 1040-1086): narrow the candidate list over the sorted (letter,
species) keys, then, when several candidates survive, compare their
dictionaries and raise on the first disagreement; the result is the
position of the adopted representation in the transformation list (the
source takes representations[0]). -/
def findBestRepresentation (perms : List (List (ℕ × ℕ)))
    (oldLetters numbers : List ℕ) : Except GroundStateErr ℕ :=
  let counts := countsOf perms oldLetters numbers
  let L := allPermValues perms
  let Z := sortedNumbersList numbers
  let reps := narrowLoop counts Z L (List.range perms.length)
  match reps with
  | [] => Except.ok 0
  | r0 :: rest =>
    match rest.findSome? (checkOneRep perms oldLetters numbers r0) with
    | some e => Except.error e
    | none => Except.ok r0

/-- One narrowing step as the specification words it: discard every
candidate that does not achieve the maximum atom count at the key, a
missing key counting as zero. -/
def specNarrowStep (counts : ℕ → ℕ → ℕ → ℕ) (reps : List ℕ) (k : ℕ × ℕ) : List ℕ :=
  let maxN := (reps.map (fun r => counts r k.fst k.snd)).foldl max 0
  reps.filter (fun r => counts r k.fst k.snd == maxN)

/-- The narrowing loop as the specification words it: over the ordered
keys, stopping as soon as exactly one candidate remains. -/
def specNarrow (counts : ℕ → ℕ → ℕ → ℕ) : List (ℕ × ℕ) → List ℕ → List ℕ
  | [], reps => reps
  | k :: ks, reps =>
    if reps.length == 1 then reps
    else specNarrow counts ks (specNarrowStep counts reps k)

/-- Plain left fold of the spec narrowing step over a key list, the
common form both loop shapes reduce to. -/
def keysFold (counts : ℕ → ℕ → ℕ → ℕ) (ks : List (ℕ × ℕ)) (reps : List ℕ) : List ℕ :=
  ks.foldl (fun rs k => specNarrowStep counts rs k) reps

/-- Identity of the (letter, species) to count mapping of two
representations, checked over every available letter and species (all
positive counts lie there). -/
def specIdenticalCounts (counts : ℕ → ℕ → ℕ → ℕ) (L Z : List ℕ) (r0 r : ℕ) : Bool :=
  (L.flatMap (fun w => Z.map (fun z => (w, z)))).all
    (fun k => counts r k.fst k.snd == counts r0 k.fst k.snd)

/-- The ground-state selection as the specification words it: iterative
narrowing over letters in alphabetical order and species in ascending
order, an immediate stop at a unique candidate, a final verification
that all survivors induce an identical count multiset (otherwise the
ambiguity error), and the deterministic choice of the first survivor. -/
def specGroundState (perms : List (List (ℕ × ℕ)))
    (oldLetters numbers : List ℕ) : Except GroundStateErr ℕ :=
  let counts := countsOf perms oldLetters numbers
  let L := allPermValues perms
  let Z := sortedNumbersList numbers
  let keys := L.flatMap (fun w => Z.map (fun z => (w, z)))
  let reps := specNarrow counts keys (List.range perms.length)
  match reps with
  | [] => Except.ok 0
  | r0 :: rest =>
    if rest.all (fun r => specIdenticalCounts counts L Z r0 r) then Except.ok r0
    else Except.error GroundStateErr.ambiguous

/-! ## Concrete instances
Small concrete inputs used by the closed theorems below. -/

/-- A conventional cell of edge 63/50 (the float 1.26) used with the
identity original cell: the coefficient 63/50 has denominator above 10
and rounds to 5/4, so the reconstructed lattice has a different volume
per atom and the rescaling step runs with a factor different from 1. -/
def exConvCell : Mat3 := ⟨63 / 50, 0, 0, 0, 63 / 50, 0, 0, 0, 63 / 50⟩

/-- Fractional positions of a one-member Wyckoff group: the single atom
sits at (1/10, 0, 0). -/
def exPositionsC2 : ℕ → Vec3 := fun n => if n = 0 then ⟨1 / 10, 0, 0⟩ else ⟨0, 0, 0⟩

/-- First tabulated expression of the example letter: (x, 0, 0). -/
def exExprFirst : Wexpr × Wexpr × Wexpr :=
  (Wexpr.var Var.x, Wexpr.num 0, Wexpr.num 0)

/-- Second tabulated expression of the example letter: (x, 1/2, 1/2).
No member atom sits at its evaluated position. -/
def exExprSecond : Wexpr × Wexpr × Wexpr :=
  (Wexpr.var Var.x, Wexpr.num (1 / 2), Wexpr.num (1 / 2))

/-- A resolved value set with x = 1/5, y = 0, z = 1/10. -/
def exSetA : List (Var × ℚ) := [(Var.x, 1 / 5), (Var.y, 0), (Var.z, 1 / 10)]

/-- A resolved value set with x = 1/10, y = 0, z = 1/5; the smaller of
the two sets when x is the most significant component. -/
def exSetB : List (Var × ℚ) := [(Var.x, 1 / 10), (Var.y, 0), (Var.z, 1 / 5)]

/-- A tiling unit whose single basis slot holds atom 0 while its
substitution record also points at atom 0. -/
def exUnit : LinkedUnit := ⟨[some 0], [⟨0, 1, 2⟩], []⟩

/-- A two-atom 2D collection with a one-atom prototype cell: atom 0 at
the origin, atom 1 at (1/2, 0, 0), one unit tile, covalent radius 1/4
for every species, bond threshold 1, the origin and the (1,0,0) lattice
translations within the cutoff, and a tetrahedra oracle that finds no
simplex. -/
def exColl : Collection where
  nAtoms := 2
  sysNumbers := fun _ => 1
  sysPositions := fun n => if n = 0 then ⟨0, 0, 0⟩ else ⟨1 / 2, 0, 0⟩
  cellNumbers := [1]
  cellDisp := fun _ _ => ⟨0, 0, 0⟩
  isTwoD := true
  delaunayThreshold := 1
  bondThreshold := 1
  dispTensorFinite := fun i j =>
    Vec3.sub (if i = 0 then ⟨0, 0, 0⟩ else ⟨1 / 2, 0, 0⟩)
      (if j = 0 then ⟨0, 0, 0⟩ else ⟨1 / 2, 0, 0⟩)
  radii := fun _ => 1 / 4
  cellTvecs := [⟨0, 0, 0⟩, ⟨1, 0, 0⟩]
  cellTvecsReduced := [⟨1, 0, 0⟩]
  sysTranslations := [⟨0, 0, 0⟩, ⟨1, 0, 0⟩]
  sysTranslationsReduced := [⟨1, 0, 0⟩]
  findSimplexOracle := fun _ _ _ => none
  units := [exUnit]

/-- The same collection with a well-formed tiling: the substitution
record points at atom 1, which is not a basis slot. -/
def exColl2 : Collection := { exColl with units := [⟨[some 0], [⟨1, 1, 2⟩], []⟩] }

/-- The cache of exColl right after the first get_vacancies call. -/
def exCacheVac : CollCache := { emptyCache with vacancies := some [] }

/-- The cache of exColl right after the first get_substitutions call. -/
def exCacheSub : CollCache := { emptyCache with substitutions := some [⟨0, 1, 2⟩] }

/-- The cache of exColl right after the first get_basis_indices call. -/
def exCacheBas : CollCache := { emptyCache with basisIndices := some {0} }

/-- The cache of exColl right after the first get_interstitials call:
the basis set, the decomposition, the inside and outside index lists and
the substitutions are stored; nothing records the interstitial set. -/
def exCacheI : CollCache :=
  { decomposition := some (fun _ => none)
    insideIndices := some []
    outsideIndices := some [1]
    adsorbates := none
    substitutions := some [⟨0, 1, 2⟩]
    clusters := none
    vacancies := none
    basisIndices := some {0} }

/-- The cache of exColl right after the first get_adsorbates (or
get_unknowns) call. -/
def exCacheAds : CollCache := { exCacheI with adsorbates := some [1] }

/-! # Theorems -/

/-- C1.  The volume per atom is NOT conserved by
get_conventional_lattice_fit.  With the identity original cell holding
one atom and a conventional cell of edge 63/50 holding two atoms, the
coefficients round to 5/4 and the final rescaling multiplies the whole
matrix by the volume-per-atom ratio 128/125, scaling the determinant by
the cube of that factor: the fitted volume per atom is 16384/15625,
far outside the relative tolerance 1e-8 of the original volume per atom
1.  The code comment at lines 408-409 states the intent of preserving
the volume, so the linear (instead of cube-root) factor is a slip. -/
theorem C1_volume_not_conserved :
    conventionalLatticeFit Mat3.one exConvCell 1 2 =
      ⟨32 / 25, 0, 0, 0, 32 / 25, 0, 0, 0, 32 / 25⟩ ∧
    |(conventionalLatticeFit Mat3.one exConvCell 1 2).det| / 2 = 16384 / 15625 ∧
    ¬ |(16384 : ℚ) / 15625 - 1| ≤ 1 / 100000000 := by
  refine ⟨by decide, by decide, by decide⟩

/-- C2.  The later-expression consistency check of the free-parameter
resolution is vacuous: for a one-atom group at (1/10, 0, 0) with
tabulated expressions (x, 0, 0) and (x, 1/2, 1/2), the trial value set
x = 1/10 is accepted even though the second expression evaluates to
(1/10, 1/2, 1/2), a position matching no group member within the
precision.  The source computes eval_pos for the later expression and
then matches evaluated_pos, the first expression's position, against
the members (lines 1297-1316). -/
theorem C2_vacuous_consistency_check :
    collectTrialValueSets [0] exPositionsC2 Mat3.one (1 / 100)
        [exExprFirst, exExprSecond] [Var.x] = some [[(Var.x, 1 / 10)]] ∧
    evalExprTriple (fun v => varLookup [(Var.x, 1 / 10)] v) exExprSecond =
      some ⟨1 / 10, 1 / 2, 1 / 2⟩ ∧
    searchPeriodicPositions (wrapVec ⟨1 / 10, 1 / 2, 1 / 2⟩) [exPositionsC2 0]
      Mat3.one (1 / 100) = none := by
  refine ⟨by decide, by decide, by decide⟩

/-- C3.  With the two passing value sets (x, y, z) = (1/5, 0, 1/10) and
(1/10, 0, 1/5), the selection of lines 1336-1364 adopts the first,
because np.lexsort takes the LAST key of the sequence (the z column) as
the primary sort key; the lexicographically smallest tuple with x most
significant is the second. -/
theorem C3_lexsort_primary_key :
    chooseVariableSet [exSetA, exSetB] = exSetA ∧
    specChooseVariableSet [exSetA, exSetB] = exSetB ∧
    chooseVariableSet [exSetA, exSetB] ≠ specChooseVariableSet [exSetA, exSetB] := by
  refine ⟨by decide, by decide, by decide⟩

/-- C7.  get_symmetry_dataset raises its normalization error exactly
when the cache is empty and the protected oracle call either aborts or
returns None; in every other case the dataset is returned and stored in
the cache, having come from the cache or from the oracle. -/
theorem C7_symmetry_dataset (α : Type) (cached : Option α) (oracle : OracleOutcome α) :
    ((∃ e, getSymmetryDataset cached oracle = Except.error e) ↔
      (cached = none ∧
        (oracle = OracleOutcome.crash ∨ oracle = OracleOutcome.res none))) ∧
    (∀ d st, getSymmetryDataset cached oracle = Except.ok (d, st) →
      st = some d ∧
        (cached = some d ∨ (cached = none ∧ oracle = OracleOutcome.res (some d)))) := by
  cases cached with
  | some d => simp [getSymmetryDataset]
  | none =>
    cases oracle with
    | crash => simp [getSymmetryDataset]
    | res r =>
      cases r with
      | none => simp [getSymmetryDataset]
      | some d => simp [getSymmetryDataset]

/-- C7 witness: with an empty cache and an oracle returning the dataset
5, the dataset is returned and cached. -/
theorem C7_symmetry_dataset_witness :
    some 5 = some (5 : ℕ) ∧
    ((none : Option ℕ) = some 5 ∨
      ((none : Option ℕ) = none ∧
        OracleOutcome.res (some 5) = OracleOutcome.res (some (5 : ℕ)))) :=
  (C7_symmetry_dataset ℕ none (OracleOutcome.res (some 5))).2 5 (some 5) rfl

/-- C8 counterexample: an environment pair on which get_chemical_distance
returns no value at all.  The ideal environment of a species with zero
neighbour count (which get_chemical_environment produces for atoms with
no neighbour within the cutoff) has total count zero, and the source
divides by it, raising ZeroDivisionError instead of producing a number
in the closed interval from 0 to 1. -/
theorem C8_counterexample : getChemicalDistance [(1, 0)] [(1, 5)] = none := by
  decide

/-- C8 (amended): whenever the ideal environment has a positive total
count, get_chemical_distance returns the sum over ideal species of the
minimum of the two counts, divided by the ideal total; the value lies
between 0 and 1, is 1 when the real environment matches or exceeds the
ideal count of every ideal species, and is 0 when no ideal species is
present in the real environment. -/
theorem C8_chemical_distance (ideal real : List (ℕ × ℕ)) (h : 0 < envTotal ideal) :
    getChemicalDistance ideal real =
      some ((chemScore ideal real : ℚ) / (envTotal ideal : ℚ)) ∧
    (0 : ℚ) ≤ (chemScore ideal real : ℚ) / (envTotal ideal : ℚ) ∧
    (chemScore ideal real : ℚ) / (envTotal ideal : ℚ) ≤ 1 ∧
    ((∀ p ∈ ideal, p.snd ≤ (envGet real p.fst).getD 0) →
      (chemScore ideal real : ℚ) / (envTotal ideal : ℚ) = 1) ∧
    ((∀ p ∈ ideal, (envGet real p.fst).getD 0 = 0) →
      (chemScore ideal real : ℚ) / (envTotal ideal : ℚ) = 0) := by
  have hne : envTotal ideal ≠ 0 := Nat.pos_iff_ne_zero.mp h
  have hscore : chemScore ideal real ≤ envTotal ideal := by
    unfold chemScore envTotal
    refine List.sum_le_sum ?_
    intro p hp
    cases hg : envGet real p.fst with
    | none => exact Nat.zero_le _
    | some rv => exact min_le_right rv p.snd
  have htotpos : (0 : ℚ) < (envTotal ideal : ℚ) := by
    exact_mod_cast h
  refine ⟨?_, ?_, ?_, ?_, ?_⟩
  · unfold getChemicalDistance
    simp [hne]
  · exact div_nonneg (by positivity) (le_of_lt htotpos)
  · rw [div_le_one htotpos]
    exact_mod_cast hscore
  · intro hall
    have hs : chemScore ideal real = envTotal ideal := by
      unfold chemScore envTotal
      rw [List.map_congr_left]
      intro p hp
      cases hg : envGet real p.fst with
      | none =>
        have := hall p hp
        rw [hg] at this
        simpa using Nat.le_antisymm this (Nat.zero_le _) |>.symm
      | some rv =>
        have := hall p hp
        rw [hg] at this
        simpa using min_eq_right this
    rw [hs]
    exact div_self (ne_of_gt htotpos)
  · intro hall
    have hs : chemScore ideal real = 0 := by
      unfold chemScore
      refine List.sum_eq_zero ?_
      intro x hx
      rw [List.mem_map] at hx
      obtain ⟨p, hp, hpx⟩ := hx
      cases hg : envGet real p.fst with
      | none => simp [hg] at hpx; omega
      | some rv =>
        have := hall p hp
        rw [hg] at this
        simp at this
        rw [hg] at hpx
        simp [this] at hpx
        omega
    rw [hs]
    simp

/-- C8 witness: at the ideal environment of two neighbours of species 1
against a real environment of three, the distance is 1. -/
theorem C8_chemical_distance_witness :
    getChemicalDistance [(1, 2)] [(1, 3)] = some 1 := by
  have h := (C8_chemical_distance [(1, 2)] [(1, 3)] (by decide)).1
  rw [h]
  norm_num [chemScore, envTotal, envGet]

/-- C9.  Insertion into the tiling map raises TypeError for a key that
cannot be converted to a tuple, ValueError for a key without exactly
three components, and ValueError for a key already present, each time
leaving the mapping unchanged; with a fresh three-component key the
insertion succeeds and extends the mapping. -/
theorem C9_setitem {α : Type} (m : List (List ℤ × α)) (k : List ℤ) (v : α) :
    collSetItem m RawKey.inconv v = (m, some InsertErr.typeErr) ∧
    (k.length ≠ 3 →
      collSetItem m (RawKey.conv k) v = (m, some InsertErr.valueLenErr)) ∧
    (k.length = 3 → (∃ p ∈ m, p.fst = k) →
      collSetItem m (RawKey.conv k) v = (m, some InsertErr.valueOverwriteErr)) ∧
    (k.length = 3 → (∀ p ∈ m, p.fst ≠ k) →
      collSetItem m (RawKey.conv k) v = (m ++ [(k, v)], none)) := by
  refine ⟨rfl, ?_, ?_, ?_⟩
  · intro hlen
    simp [collSetItem, hlen]
  · intro hlen hmem
    obtain ⟨p, hp, hpk⟩ := hmem
    have hany : m.any (fun p => p.fst == k) = true := by
      rw [List.any_eq_true]
      exact ⟨p, hp, by simp [hpk]⟩
    simp [collSetItem, hlen, hany]
  · intro hlen hfresh
    have hany : m.any (fun p => p.fst == k) = false := by
      rw [List.any_eq_false]
      intro p hp
      simp [hfresh p hp]
    simp [collSetItem, hlen, hany]

/-- C9 witness: against a map holding the key (1, 2, 3), the four cases
at concrete keys. -/
theorem C9_setitem_witness :
    collSetItem ([([1, 2, 3], 7)] : List (List ℤ × ℕ)) RawKey.inconv 9 =
      ([([1, 2, 3], 7)], some InsertErr.typeErr) ∧
    collSetItem ([([1, 2, 3], 7)] : List (List ℤ × ℕ)) (RawKey.conv [1, 2]) 9 =
      ([([1, 2, 3], 7)], some InsertErr.valueLenErr) ∧
    collSetItem ([([1, 2, 3], 7)] : List (List ℤ × ℕ)) (RawKey.conv [1, 2, 3]) 9 =
      ([([1, 2, 3], 7)], some InsertErr.valueOverwriteErr) ∧
    collSetItem ([([1, 2, 3], 7)] : List (List ℤ × ℕ)) (RawKey.conv [4, 5, 6]) 9 =
      ([([1, 2, 3], 7), ([4, 5, 6], 9)], none) := by
  refine ⟨(C9_setitem [([1, 2, 3], 7)] [] 9).1,
    (C9_setitem [([1, 2, 3], 7)] [1, 2] 9).2.1 (by decide),
    (C9_setitem [([1, 2, 3], 7)] [1, 2, 3] 9).2.2.1 rfl ⟨([1, 2, 3], 7), by simp⟩,
    (C9_setitem [([1, 2, 3], 7)] [4, 5, 6] 9).2.2.2 rfl (by decide)⟩

/-- Membership in the ascending enumeration of an index set below n. -/
theorem mem_ascList (n : ℕ) (s : Finset ℕ) (i : ℕ) :
    i ∈ ascList n s ↔ i < n ∧ i ∈ s := by
  unfold ascList
  simp [List.mem_filter]

/-- Membership in the invalid set forces the index below the atom
count. -/
theorem mem_invalid_lt (c : Collection) (b : Finset ℕ) (i : ℕ)
    (h : i ∈ invalidOf c b) : i < c.nAtoms := by
  unfold invalidOf at h
  exact Finset.mem_range.mp (Finset.mem_sdiff.mp h).1

/-- Membership in the inside list: an invalid index whose position lies
in some simplex of the decomposition. -/
theorem mem_inside_iff (c : Collection) (b : Finset ℕ) (i : ℕ) :
    i ∈ (insideOutsideCompute c b).1 ↔
      i ∈ invalidOf c b ∧
        ((decompositionOf c b) (c.sysPositions i)).isSome = true := by
  simp only [insideOutsideCompute]
  by_cases h : (ascList c.nAtoms (invalidOf c b)).isEmpty = true
  · rw [if_pos h]
    rw [List.isEmpty_iff] at h
    constructor
    · intro hi
      exact absurd hi (List.not_mem_nil i)
    · intro hi
      have hs : i ∈ ascList c.nAtoms (invalidOf c b) :=
        (mem_ascList _ _ _).mpr ⟨mem_invalid_lt c b i hi.1, hi.1⟩
      rw [h] at hs
      exact absurd hs (List.not_mem_nil i)
  · rw [if_neg h]
    constructor
    · intro hi
      have hm := List.mem_filter.mp hi
      exact ⟨((mem_ascList _ _ _).mp hm.1).2, hm.2⟩
    · intro hi
      exact List.mem_filter.mpr
        ⟨(mem_ascList _ _ _).mpr ⟨mem_invalid_lt c b i hi.1, hi.1⟩, hi.2⟩

/-- Membership in the outside list: an invalid index whose position lies
in no simplex of the decomposition. -/
theorem mem_outside_iff (c : Collection) (b : Finset ℕ) (i : ℕ) :
    i ∈ (insideOutsideCompute c b).2 ↔
      i ∈ invalidOf c b ∧
        ((decompositionOf c b) (c.sysPositions i)).isNone = true := by
  simp only [insideOutsideCompute]
  by_cases h : (ascList c.nAtoms (invalidOf c b)).isEmpty = true
  · rw [if_pos h]
    rw [List.isEmpty_iff] at h
    constructor
    · intro hi
      exact absurd hi (List.not_mem_nil i)
    · intro hi
      have hs : i ∈ ascList c.nAtoms (invalidOf c b) :=
        (mem_ascList _ _ _).mpr ⟨mem_invalid_lt c b i hi.1, hi.1⟩
      rw [h] at hs
      exact absurd hs (List.not_mem_nil i)
  · rw [if_neg h]
    constructor
    · intro hi
      have hm := List.mem_filter.mp hi
      exact ⟨((mem_ascList _ _ _).mp hm.1).2, hm.2⟩
    · intro hi
      exact List.mem_filter.mpr
        ⟨(mem_ascList _ _ _).mpr ⟨mem_invalid_lt c b i hi.1, hi.1⟩, hi.2⟩

/-- C10.  The inside and outside index lists are disjoint, their union
is exactly the complement of the basis set within the atom index range,
and no basis atom appears in either list. -/
theorem C10_inside_outside_partition (c : Collection) (b : Finset ℕ)
    (hb : getBasisIndicesCompute c = some b) :
    (insideOutsideCompute c b).1.toFinset ∩ (insideOutsideCompute c b).2.toFinset = ∅ ∧
    (insideOutsideCompute c b).1.toFinset ∪ (insideOutsideCompute c b).2.toFinset =
      Finset.range c.nAtoms \ b ∧
    ∀ i ∈ b, i ∉ (insideOutsideCompute c b).1 ∧ i ∉ (insideOutsideCompute c b).2 := by
  clear hb
  refine ⟨?_, ?_, ?_⟩
  · ext i
    simp only [Finset.mem_inter, List.mem_toFinset, Finset.not_mem_empty, iff_false]
    intro hi
    have h1 := (mem_inside_iff c b i).mp hi.1
    have h2 := (mem_outside_iff c b i).mp hi.2
    rw [Option.isNone_iff_eq_none] at h2
    rw [h2.2] at h1
    exact absurd h1.2 (by simp)
  · ext i
    simp only [Finset.mem_union, List.mem_toFinset, mem_inside_iff, mem_outside_iff]
    unfold invalidOf
    constructor
    · intro hi
      rcases hi with h | h
      · exact h.1
      · exact h.1
    · intro hi
      cases hdec : (decompositionOf c b) (c.sysPositions i) with
      | none => exact Or.inr ⟨hi, by simp [hdec]⟩
      | some s => exact Or.inl ⟨hi, by simp [hdec]⟩
  · intro i hib
    constructor
    · intro hi
      have := ((mem_inside_iff c b i).mp hi).1
      unfold invalidOf at this
      exact absurd hib (Finset.mem_sdiff.mp this).2
    · intro hi
      have := ((mem_outside_iff c b i).mp hi).1
      unfold invalidOf at this
      exact absurd hib (Finset.mem_sdiff.mp this).2

/-- C10 witness: the example collection with its computed basis set:
atom 1 is invalid, lies in no simplex, and so is the single outside
index. -/
theorem C10_inside_outside_partition_witness :
    ((insideOutsideCompute exColl {0}).1.toFinset ∩
        (insideOutsideCompute exColl {0}).2.toFinset = ∅ ∧
      (insideOutsideCompute exColl {0}).1.toFinset ∪
          (insideOutsideCompute exColl {0}).2.toFinset =
        Finset.range exColl.nAtoms \ {0} ∧
      ∀ i ∈ ({0} : Finset ℕ), i ∉ (insideOutsideCompute exColl {0}).1 ∧
        i ∉ (insideOutsideCompute exColl {0}).2) :=
  C10_inside_outside_partition exColl {0} (by decide)

/-- C4 counterexample: on the 2D example collection whose tiling lists
atom 0 both as a basis slot and as a substitution, the basis set and the
substitution index set both contain atom 0, so the five classification
sets are not pairwise disjoint as the claim states for every
collection. -/
theorem C4_basis_substitution_overlap :
    getBasisIndicesCompute exColl = some {0} ∧
    partitionSets exColl {0} = [{0}, ∅, {1}, {0}, ∅] ∧
    ¬ (partitionSets exColl {0}).Pairwise Disjoint := by
  refine ⟨by decide, by decide, ?_⟩
  intro h
  rw [show partitionSets exColl {0} = [{0}, ∅, {1}, {0}, ∅] from by decide] at h
  have hd : Disjoint ({0} : Finset ℕ) ({0} : Finset ℕ) :=
    (List.pairwise_cons.mp h).1 {0} (by simp)
  have h0 : (0 : ℕ) ∈ ({0} : Finset ℕ) := by simp
  exact (Finset.disjoint_left.mp hd h0) h0

/-- C4 (amended).  For every collection whose basis computation succeeds
with a basis set inside the atom range, whose recorded substitution
indices are valid atom indices, and whose substitution indices avoid the
accepted basis set when the material is 2D (as a well-formed tiling
guarantees, and as holds automatically otherwise), the basis,
interstitial, adsorbate, substitution and unknown index sets are
pairwise disjoint and their union is exactly the set of all atom
indices; the vacancy records carry no atom index. -/
theorem C4_defect_partition (c : Collection) (b : Finset ℕ)
    (hb : getBasisIndicesCompute c = some b)
    (hbr : b ⊆ Finset.range c.nAtoms)
    (hsr : ∀ s ∈ allSubstitutions c, s.index < c.nAtoms)
    (h2d : c.isTwoD = true → ∀ s ∈ allSubstitutions c, s.index ∉ b) :
    (partitionSets c b).foldr (· ∪ ·) ∅ = Finset.range c.nAtoms ∧
    (partitionSets c b).Pairwise Disjoint := by
  clear hb
  set io := insideOutsideCompute c b with hio
  set subs := substitutionsCompute c io.1 with hsubs
  set sIdx := (subs.map SubstitutionRec.index).toFinset with hsIdx
  set inter := interstitialsCompute io.1 subs with hinter
  set adsL := adsorbatesCompute c io.2 subs with hadsL
  set unk := unknownsCompute c b inter adsL subs with hunk
  -- membership facts
  have hInsInv : ∀ i ∈ io.1, i ∈ Finset.range c.nAtoms ∧ i ∉ b := by
    intro i hi
    have := ((mem_inside_iff c b i).mp hi).1
    unfold invalidOf at this
    exact Finset.mem_sdiff.mp this
  have hOutsInv : ∀ i ∈ io.2, i ∈ Finset.range c.nAtoms ∧ i ∉ b := by
    intro i hi
    have := ((mem_outside_iff c b i).mp hi).1
    unfold invalidOf at this
    exact Finset.mem_sdiff.mp this
  have hInsOuts : ∀ i, i ∈ io.1 → i ∈ io.2 → False := by
    intro i h1 h2
    have q1 := ((mem_inside_iff c b i).mp h1).2
    have q2 := ((mem_outside_iff c b i).mp h2).2
    rw [Option.isNone_iff_eq_none] at q2
    rw [q2] at q1
    exact absurd q1 (by simp)
  have hSubsAll : ∀ s ∈ subs, s ∈ allSubstitutions c := by
    intro s hs
    rw [hsubs] at hs
    unfold substitutionsCompute at hs
    by_cases h2 : c.isTwoD
    · rw [if_pos h2] at hs; exact hs
    · rw [if_neg h2] at hs; exact List.mem_filter.mp hs |>.1
  have hSubsB : ∀ s ∈ subs, s.index ∉ b := by
    intro s hs
    rw [hsubs] at hs
    unfold substitutionsCompute at hs
    by_cases h2 : c.isTwoD
    · rw [if_pos h2] at hs
      exact h2d h2 s hs
    · rw [if_neg h2] at hs
      have := List.mem_filter.mp hs
      have hmem : s.index ∈ io.1 := by
        have hd := this.2
        simpa using hd
      exact (hInsInv s.index hmem).2
  have hSubsInside : c.isTwoD = false → ∀ s ∈ subs, s.index ∈ io.1 := by
    intro h2 s hs
    rw [hsubs] at hs
    unfold substitutionsCompute at hs
    rw [if_neg (by simp [h2])] at hs
    have := List.mem_filter.mp hs
    simpa using this.2
  have hInterMem : ∀ i, i ∈ inter ↔ i ∈ io.1 ∧ i ∉ sIdx := by
    intro i
    rw [hinter]
    unfold interstitialsCompute
    simp [Finset.mem_sdiff, hsIdx]
  have hAdsMem : ∀ i, i ∈ adsL → i ∈ io.2 := by
    intro i hi
    rw [hadsL] at hi
    unfold adsorbatesCompute at hi
    by_cases h2 : c.isTwoD
    · rw [if_pos h2] at hi
      have := ((mem_ascList _ _ _).mp hi).2
      have := Finset.mem_sdiff.mp this
      exact List.mem_toFinset.mp this.1
    · rw [if_neg h2] at hi
      exact hi
  have hAdsSIdx : c.isTwoD = true → ∀ i ∈ adsL, i ∉ sIdx := by
    intro h2 i hi
    rw [hadsL] at hi
    unfold adsorbatesCompute at hi
    rw [if_pos h2] at hi
    have := Finset.mem_sdiff.mp ((mem_ascList _ _ _).mp hi).2
    simpa [hsIdx] using this.2
  have hSIdxMem : ∀ i ∈ sIdx, ∃ s ∈ subs, s.index = i := by
    intro i hi
    rw [hsIdx] at hi
    have := List.mem_toFinset.mp hi
    rw [List.mem_map] at this
    obtain ⟨s, hs, hsi⟩ := this
    exact ⟨s, hs, hsi⟩
  have hUnkMem : ∀ i, i ∈ unk ↔
      i ∈ Finset.range c.nAtoms ∧ ¬(i ∈ b ∨ i ∈ inter ∨ i ∈ adsL.toFinset ∨ i ∈ sIdx) := by
    intro i
    rw [hunk]
    unfold unknownsCompute
    simp only [Finset.mem_sdiff, Finset.mem_union, List.mem_toFinset]
    rw [hsIdx, hinter]
    simp [or_assoc]
  constructor
  · -- the union covers the range exactly
    ext i
    simp only [partitionSets, List.foldr, Finset.mem_union, Finset.not_mem_empty, or_false]
    rw [← hio, ← hsubs, ← hsIdx, ← hinter, ← hadsL, ← hunk]
    constructor
    · intro hi
      rcases hi with h | h | h | h | h
      · exact hbr h
      · exact (hInsInv i ((hInterMem i).mp h).1).1
      · exact (hOutsInv i (hAdsMem i (List.mem_toFinset.mp h))).1
      · obtain ⟨s, hs, hsi⟩ := hSIdxMem i h
        rw [← hsi]
        exact Finset.mem_range.mpr (hsr s (hSubsAll s hs))
      · exact ((hUnkMem i).mp h).1
    · intro hi
      by_cases hcase : i ∈ b ∨ i ∈ inter ∨ i ∈ adsL.toFinset ∨ i ∈ sIdx
      · rcases hcase with h | h | h | h
        · exact Or.inl h
        · exact Or.inr (Or.inl h)
        · exact Or.inr (Or.inr (Or.inl h))
        · exact Or.inr (Or.inr (Or.inr (Or.inl h)))
      · exact Or.inr (Or.inr (Or.inr (Or.inr ((hUnkMem i).mpr ⟨hi, hcase⟩))))
  · -- pairwise disjointness
    have hUnkNot : ∀ i ∈ unk, i ∉ b ∧ i ∉ inter ∧ i ∉ adsL.toFinset ∧ i ∉ sIdx := by
      intro i hi
      have := ((hUnkMem i).mp hi).2
      push_neg at this
      exact ⟨this.1, this.2.1, this.2.2.1, this.2.2.2⟩
    simp only [partitionSets, List.pairwise_cons, List.Pairwise.nil, List.mem_cons,
      List.mem_singleton, List.not_mem_nil]
    rw [← hio, ← hsubs, ← hsIdx, ← hinter, ← hadsL, ← hunk]
    refine ⟨?_, ?_, ?_, ?_, ?_⟩
    · -- b against the other four
      intro t ht
      rw [Finset.disjoint_left]
      intro i hib hit
      rcases ht with h | h | h | h
      · subst h
        exact absurd hib (hInsInv i ((hInterMem i).mp hit).1).2
      · subst h
        exact absurd hib (hOutsInv i (hAdsMem i (List.mem_toFinset.mp hit))).2
      · subst h
        obtain ⟨s, hs, hsi⟩ := hSIdxMem i hit
        rw [← hsi] at hib
        exact absurd hib (hSubsB s hs)
      · rcases h with h | h
        · subst h
          exact absurd hib (hUnkNot i hit).1
        · exact absurd h (by simp)
    · -- inter against the other three
      intro t ht
      rw [Finset.disjoint_left]
      intro i hii hit
      rcases ht with h | h | h
      · subst h
        have h1 := ((hInterMem i).mp hii).1
        exact hInsOuts i h1 (hAdsMem i (List.mem_toFinset.mp hit))
      · subst h
        exact absurd hit ((hInterMem i).mp hii).2
      · rcases h with h | h
        · subst h
          exact absurd hii (hUnkNot i hit).2.1
        · exact absurd h (by simp)
    · -- adsorbates against the other two
      intro t ht
      rw [Finset.disjoint_left]
      intro i hia hit
      rcases ht with h | h
      · subst h
        by_cases h2 : c.isTwoD
        · exact absurd hit (hAdsSIdx h2 i (List.mem_toFinset.mp hia))
        · obtain ⟨s, hs, hsi⟩ := hSIdxMem i hit
          have hins := hSubsInside (by simpa using h2) s hs
          rw [hsi] at hins
          exact hInsOuts i hins (hAdsMem i (List.mem_toFinset.mp hia))
      · rcases h with h | h
        · subst h
          exact absurd hia (hUnkNot i hit).2.2.1
        · exact absurd h (by simp)
    · -- substitutions against unknowns
      intro t ht
      rcases ht with h | h
      · subst h
        rw [Finset.disjoint_left]
        intro i his hit
        exact absurd his (hUnkNot i hit).2.2.2
      · exact absurd h (by simp)
    · exact ⟨by intro t ht; exact absurd ht (by simp), trivial⟩

/-- C4 witness: the well-formed variant of the example collection (its
substitution record points at the non-basis atom 1), where the five
sets are the basis 0-singleton, the empty interstitial set, the empty
adsorbate set, the substitution singleton 1 and the empty unknown set. -/
theorem C4_defect_partition_witness :
    (partitionSets exColl2 {0}).foldr (· ∪ ·) ∅ = Finset.range exColl2.nAtoms ∧
    (partitionSets exColl2 {0}).Pairwise Disjoint :=
  C4_defect_partition exColl2 {0} (by decide) (by decide) (by decide) (by decide)

/-- A cache hit of get_vacancies returns the stored list unchanged. -/
theorem getVacanciesM_hit (c : Collection) (st : CollCache) (v : List VacancyRec)
    (h : st.vacancies = some v) : getVacanciesM c st = some (v, st, 0) := by
  unfold getVacanciesM
  rw [h]

/-- Every successful get_vacancies call leaves the result in the
vacancies field. -/
theorem getVacanciesM_stores (c : Collection) (st : CollCache) (v : List VacancyRec)
    (st1 : CollCache) (k : ℕ) (h : getVacanciesM c st = some (v, st1, k)) :
    st1.vacancies = some v := by
  unfold getVacanciesM at h
  cases hv : st.vacancies with
  | some v0 =>
    rw [hv] at h
    simp only [Option.some.injEq, Prod.mk.injEq] at h
    rw [← h.2.1, hv, h.1]
  | none =>
    rw [hv] at h
    by_cases h2 : c.isTwoD = true
    · rw [if_pos h2] at h
      simp only [Option.some.injEq, Prod.mk.injEq] at h
      rw [← h.2.1, ← h.1]
    · rw [if_neg h2] at h
      cases htd : getTetrahedraDecompositionM c st with
      | none => rw [htd] at h; exact absurd h (by simp)
      | some r =>
        obtain ⟨f, st2, k2⟩ := r
        rw [htd] at h
        simp only [Option.some.injEq, Prod.mk.injEq] at h
        rw [← h.2.1, ← h.1]

/-- A cache hit of get_substitutions returns the stored list
unchanged. -/
theorem getSubstitutionsM_hit (c : Collection) (st : CollCache)
    (v : List SubstitutionRec) (h : st.substitutions = some v) :
    getSubstitutionsM c st = some (v, st, 0) := by
  unfold getSubstitutionsM
  rw [h]

/-- Every successful get_substitutions call leaves the result in the
substitutions field. -/
theorem getSubstitutionsM_stores (c : Collection) (st : CollCache)
    (v : List SubstitutionRec) (st1 : CollCache) (k : ℕ)
    (h : getSubstitutionsM c st = some (v, st1, k)) :
    st1.substitutions = some v := by
  unfold getSubstitutionsM at h
  cases hv : st.substitutions with
  | some v0 =>
    rw [hv] at h
    simp only [Option.some.injEq, Prod.mk.injEq] at h
    rw [← h.2.1, hv, h.1]
  | none =>
    rw [hv] at h
    by_cases h2 : c.isTwoD = true
    · rw [if_pos h2] at h
      simp only [Option.some.injEq, Prod.mk.injEq] at h
      rw [← h.2.1, ← h.1]
    · rw [if_neg h2] at h
      cases hio : getInsideOutsideM c st with
      | none => rw [hio] at h; exact absurd h (by simp)
      | some r =>
        obtain ⟨⟨ins, outs⟩, st2, k2⟩ := r
        rw [hio] at h
        simp only [Option.some.injEq, Prod.mk.injEq] at h
        rw [← h.2.1, ← h.1]

/-- A cache hit of get_adsorbates returns the stored list unchanged. -/
theorem getAdsorbatesM_hit (c : Collection) (st : CollCache) (v : List ℕ)
    (h : st.adsorbates = some v) : getAdsorbatesM c st = some (v, st, 0) := by
  unfold getAdsorbatesM
  rw [h]

/-- Every successful get_adsorbates call leaves the result in the
adsorbates field. -/
theorem getAdsorbatesM_stores (c : Collection) (st : CollCache) (v : List ℕ)
    (st1 : CollCache) (k : ℕ) (h : getAdsorbatesM c st = some (v, st1, k)) :
    st1.adsorbates = some v := by
  unfold getAdsorbatesM at h
  cases hv : st.adsorbates with
  | some v0 =>
    rw [hv] at h
    simp only [Option.some.injEq, Prod.mk.injEq] at h
    rw [← h.2.1, hv, h.1]
  | none =>
    cases hio : getInsideOutsideM c st with
    | none => simp only [hv, hio] at h; exact absurd h (by simp)
    | some r =>
      obtain ⟨⟨ins, outs⟩, st2, k2⟩ := r
      simp only [hv, hio] at h
      by_cases h2 : c.isTwoD = true
      · rw [if_pos h2] at h
        cases hsub : getSubstitutionsM c st2 with
        | none => simp only [hsub] at h; exact absurd h (by simp)
        | some r2 =>
          obtain ⟨subs, st3, k3⟩ := r2
          simp only [hsub, Option.some.injEq, Prod.mk.injEq] at h
          rw [← h.2.1, ← h.1]
      · rw [if_neg h2] at h
        simp only [Option.some.injEq, Prod.mk.injEq] at h
        rw [← h.2.1, ← h.1]

/-- A cache hit of get_basis_indices returns the stored set unchanged. -/
theorem getBasisIndicesM_hit (c : Collection) (st : CollCache) (v : Finset ℕ)
    (h : st.basisIndices = some v) : getBasisIndicesM c st = some (v, st, 0) := by
  unfold getBasisIndicesM
  rw [h]

/-- Every successful get_basis_indices call leaves the result in the
basis field. -/
theorem getBasisIndicesM_stores (c : Collection) (st : CollCache) (v : Finset ℕ)
    (st1 : CollCache) (k : ℕ) (h : getBasisIndicesM c st = some (v, st1, k)) :
    st1.basisIndices = some v := by
  unfold getBasisIndicesM at h
  cases hv : st.basisIndices with
  | some v0 =>
    rw [hv] at h
    simp only [Option.some.injEq, Prod.mk.injEq] at h
    rw [← h.2.1, hv, h.1]
  | none =>
    rw [hv] at h
    cases hc : getBasisIndicesCompute c with
    | none => rw [hc] at h; exact absurd h (by simp [Option.map])
    | some b =>
      rw [hc] at h
      simp only [Option.map, Option.some.injEq, Prod.mk.injEq] at h
      rw [← h.2.1, ← h.1]

/-- C6 counterexample: on the example collection, the second
get_interstitials call performs the set-difference computation again
(count 1, not 0) and finds no stored result: the cache record, a
faithful copy of the fields initialized by __init__, has no
interstitial field, so the first call cannot store one. -/
theorem C6_interstitials_not_memoized :
    getInterstitialsM exColl emptyCache = some (∅, exCacheI, 1) ∧
    getInterstitialsM exColl exCacheI = some (∅, exCacheI, 1) := by
  exact ⟨rfl, rfl⟩

/-- C6 (amended).  The vacancy, substitution and adsorbate sets and the
basis set are memoized per collection instance: after any successful
call, a repeated call returns the same value with the cache unchanged
and performs no recomputation (count 0).  The interstitial and unknown
sets are NOT memoized: every successful call recomputes them from the
(cached) ingredients, with count 1. -/
theorem C6_memoization :
    (∀ (c : Collection) (st : CollCache) v st1 k,
      getVacanciesM c st = some (v, st1, k) →
        getVacanciesM c st1 = some (v, st1, 0)) ∧
    (∀ (c : Collection) (st : CollCache) v st1 k,
      getSubstitutionsM c st = some (v, st1, k) →
        getSubstitutionsM c st1 = some (v, st1, 0)) ∧
    (∀ (c : Collection) (st : CollCache) v st1 k,
      getAdsorbatesM c st = some (v, st1, k) →
        getAdsorbatesM c st1 = some (v, st1, 0)) ∧
    (∀ (c : Collection) (st : CollCache) v st1 k,
      getBasisIndicesM c st = some (v, st1, k) →
        getBasisIndicesM c st1 = some (v, st1, 0)) ∧
    (∀ (c : Collection) (st : CollCache) r,
      getInterstitialsM c st = some r → r.2.2 = 1) ∧
    (∀ (c : Collection) (st : CollCache) r,
      getUnknownsM c st = some r → r.2.2 = 1) := by
  refine ⟨?_, ?_, ?_, ?_, ?_, ?_⟩
  · intro c st v st1 k h
    exact getVacanciesM_hit c st1 v (getVacanciesM_stores c st v st1 k h)
  · intro c st v st1 k h
    exact getSubstitutionsM_hit c st1 v (getSubstitutionsM_stores c st v st1 k h)
  · intro c st v st1 k h
    exact getAdsorbatesM_hit c st1 v (getAdsorbatesM_stores c st v st1 k h)
  · intro c st v st1 k h
    exact getBasisIndicesM_hit c st1 v (getBasisIndicesM_stores c st v st1 k h)
  · intro c st r h
    unfold getInterstitialsM at h
    cases hio : getInsideOutsideM c st with
    | none => simp only [hio] at h; exact absurd h (by simp)
    | some r1 =>
      obtain ⟨⟨ins, outs⟩, st1, k1⟩ := r1
      simp only [hio] at h
      cases hsub : getSubstitutionsM c st1 with
      | none => simp only [hsub] at h; exact absurd h (by simp)
      | some r2 =>
        obtain ⟨subs, st2, k2⟩ := r2
        simp only [hsub, Option.some.injEq] at h
        rw [← h]
  · intro c st r h
    unfold getUnknownsM at h
    cases hb : getBasisIndicesM c st with
    | none => simp only [hb] at h; exact absurd h (by simp)
    | some r1 =>
      obtain ⟨b, st1, k1⟩ := r1
      simp only [hb] at h
      cases hin : getInterstitialsM c st1 with
      | none => simp only [hin] at h; exact absurd h (by simp)
      | some r2 =>
        obtain ⟨inter, st2, k2⟩ := r2
        simp only [hin] at h
        cases had : getAdsorbatesM c st2 with
        | none => simp only [had] at h; exact absurd h (by simp)
        | some r3 =>
          obtain ⟨ads, st3, k3⟩ := r3
          simp only [had] at h
          cases hsub : getSubstitutionsM c st3 with
          | none => simp only [hsub] at h; exact absurd h (by simp)
          | some r4 =>
            obtain ⟨subs, st4, k4⟩ := r4
            simp only [hsub, Option.some.injEq] at h
            rw [← h]

/-- C6 witness: the example collection, with the repeated calls of the
cached accessors returning the stored values without recomputation, and
the recomputation counts of the uncached interstitial and unknown
accessors equal to 1. -/
theorem C6_memoization_witness :
    getVacanciesM exColl exCacheVac = some ([], exCacheVac, 0) ∧
    getSubstitutionsM exColl exCacheSub = some ([⟨0, 1, 2⟩], exCacheSub, 0) ∧
    getAdsorbatesM exColl exCacheAds = some ([1], exCacheAds, 0) ∧
    getBasisIndicesM exColl exCacheBas = some ({0}, exCacheBas, 0) ∧
    ((∅, exCacheI, 1) : Finset ℕ × CollCache × ℕ).2.2 = 1 ∧
    ((∅, exCacheAds, 1) : Finset ℕ × CollCache × ℕ).2.2 = 1 := by
  refine ⟨C6_memoization.1 exColl emptyCache [] exCacheVac 1 rfl,
    C6_memoization.2.1 exColl emptyCache [⟨0, 1, 2⟩] exCacheSub 1 rfl,
    C6_memoization.2.2.1 exColl emptyCache [1] exCacheAds 1 rfl,
    C6_memoization.2.2.2.1 exColl emptyCache {0} exCacheBas 1 rfl,
    C6_memoization.2.2.2.2.1 exColl emptyCache (∅, exCacheI, 1) rfl,
    C6_memoization.2.2.2.2.2 exColl emptyCache (∅, exCacheAds, 1) rfl⟩

end Systax
namespace Systax

theorem foldl_max_filter_ne (l : List ℕ) (a : ℕ) :
    (l.filter (fun n => n != 0)).foldl max a = l.foldl max a := by
  induction l generalizing a with
  | nil => rfl
  | cons x xs ih =>
    by_cases hx : x = 0
    · subst hx
      simp only [List.filter_cons, bne_self_eq_false, Bool.false_eq_true, if_false,
        List.foldl_cons, Nat.max_zero]
      exact ih a
    · have hb : (x != 0) = true := bne_iff_ne.mpr hx
      simp only [List.filter_cons, hb, if_true, List.foldl_cons]
      exact ih (max a x)

theorem le_foldl_max (l : List ℕ) (a : ℕ) : a ≤ l.foldl max a := by
  induction l generalizing a with
  | nil => exact le_rfl
  | cons x xs ih => exact le_trans (Nat.le_max_left a x) (ih (max a x))

theorem mem_le_foldl_max (l : List ℕ) : ∀ (a x : ℕ), x ∈ l → x ≤ l.foldl max a := by
  induction l with
  | nil => intro a x hx; cases hx
  | cons y ys ih =>
    intro a x hx
    rw [List.foldl_cons]
    rcases List.mem_cons.mp hx with h | h
    · subst h
      exact le_trans (Nat.le_max_right a x) (le_foldl_max ys (max a x))
    · exact ih (max a y) x h

theorem narrowStep_eq_spec (counts : ℕ → ℕ → ℕ → ℕ) (reps : List ℕ) (w z : ℕ) :
    narrowStep counts reps w z = specNarrowStep counts reps (w, z) := by
  simp only [narrowStep, specNarrowStep]
  have hmap : (reps.filter (fun r => counts r w z != 0)).map (fun r => counts r w z)
      = (reps.map (fun r => counts r w z)).filter (fun n => n != 0) := by
    rw [List.filter_map]
    rfl
  rw [hmap, foldl_max_filter_ne]
  by_cases hm : (reps.map (fun r => counts r w z)).foldl max 0 = 0
  · rw [if_pos hm, hm]
    symm
    rw [List.filter_eq_self]
    intro r hr
    have : counts r w z ≤ 0 := by
      rw [← hm]
      exact mem_le_foldl_max _ 0 _ (List.mem_map_of_mem _ hr)
    simpa using Nat.le_zero.mp this
  · rw [if_neg hm]

theorem specNarrowStep_singleton (counts : ℕ → ℕ → ℕ → ℕ) (r : ℕ) (k : ℕ × ℕ) :
    specNarrowStep counts [r] k = [r] := by
  simp [specNarrowStep]

theorem keysFold_singleton (counts : ℕ → ℕ → ℕ → ℕ) (ks : List (ℕ × ℕ)) (r : ℕ) :
    keysFold counts ks [r] = [r] := by
  induction ks with
  | nil => rfl
  | cons k ks ih =>
    unfold keysFold
    rw [List.foldl_cons, specNarrowStep_singleton]
    exact ih

theorem keysFold_subset (counts : ℕ → ℕ → ℕ → ℕ) (ks : List (ℕ × ℕ)) (reps : List ℕ) :
    ∀ x ∈ keysFold counts ks reps, x ∈ reps := by
  induction ks generalizing reps with
  | nil => intro x hx; exact hx
  | cons k ks ih =>
    intro x hx
    unfold keysFold at hx
    rw [List.foldl_cons] at hx
    have hx2 : x ∈ specNarrowStep counts reps k := ih (specNarrowStep counts reps k) x hx
    simp only [specNarrowStep, List.mem_filter] at hx2
    exact hx2.1

theorem specNarrowStep_agree (counts : ℕ → ℕ → ℕ → ℕ) (reps : List ℕ) (k : ℕ × ℕ)
    (r r' : ℕ) (hr : r ∈ specNarrowStep counts reps k)
    (hr' : r' ∈ specNarrowStep counts reps k) :
    counts r k.1 k.2 = counts r' k.1 k.2 := by
  simp only [specNarrowStep, List.mem_filter] at hr hr'
  rw [eq_of_beq hr.2, eq_of_beq hr'.2]

theorem keysFold_agree (counts : ℕ → ℕ → ℕ → ℕ) :
    ∀ (ks : List (ℕ × ℕ)) (reps : List ℕ) (k : ℕ × ℕ), k ∈ ks →
      ∀ r ∈ keysFold counts ks reps, ∀ r' ∈ keysFold counts ks reps,
        counts r k.1 k.2 = counts r' k.1 k.2 := by
  intro ks
  induction ks with
  | nil => intro reps k hk; cases hk
  | cons k0 rest ih =>
    intro reps k hk r hr r' hr'
    unfold keysFold at hr hr'
    rw [List.foldl_cons] at hr hr'
    rcases List.mem_cons.mp hk with h | h
    · subst h
      exact specNarrowStep_agree counts reps k r r'
        (keysFold_subset counts rest _ r hr) (keysFold_subset counts rest _ r' hr')
    · exact ih (specNarrowStep counts reps k0) k h r hr r' hr'

theorem letterPassRec_fst (counts : ℕ → ℕ → ℕ → ℕ) (w : ℕ) :
    ∀ (zs : List ℕ) (reps : List ℕ) (found : Bool),
      (letterPassRec counts w zs reps found).1 =
        keysFold counts (zs.map (fun z => (w, z))) reps := by
  intro zs
  induction zs with
  | nil => intro reps found; rfl
  | cons z zs ih =>
    intro reps found
    simp only [letterPassRec, List.map_cons]
    unfold keysFold
    rw [List.foldl_cons, ← narrowStep_eq_spec]
    exact ih _ _

theorem letterPassRec_found (counts : ℕ → ℕ → ℕ → ℕ) (w : ℕ) :
    ∀ (zs : List ℕ) (reps : List ℕ) (found : Bool),
      (letterPassRec counts w zs reps found).2 = true →
      found = true ∨ (letterPassRec counts w zs reps found).1.length = 1 := by
  intro zs
  induction zs with
  | nil => intro reps found h; exact Or.inl h
  | cons z zs ih =>
    intro reps found h
    simp only [letterPassRec] at h ⊢
    rcases ih _ _ h with h2 | h2
    · simp only [Bool.or_eq_true] at h2
      rcases h2 with hf | hl
      · exact Or.inl hf
      · right
        have hlen : (narrowStep counts reps w z).length = 1 := eq_of_beq hl
        obtain ⟨x, hx⟩ := List.length_eq_one.mp hlen
        rw [letterPassRec_fst counts w zs _ _, hx, keysFold_singleton]
        rfl
    · exact Or.inr h2

theorem narrowLoop_eq (counts : ℕ → ℕ → ℕ → ℕ) (zs : List ℕ) :
    ∀ (ws : List ℕ) (reps : List ℕ),
      narrowLoop counts zs ws reps =
        keysFold counts (ws.flatMap (fun w => zs.map (fun z => (w, z)))) reps := by
  intro ws
  induction ws with
  | nil => intro reps; rfl
  | cons w ws ih =>
    intro reps
    simp only [narrowLoop, List.flatMap_cons]
    have happ : keysFold counts
        (zs.map (fun z => (w, z)) ++ ws.flatMap (fun w => zs.map (fun z => (w, z)))) reps
        = keysFold counts (ws.flatMap (fun w => zs.map (fun z => (w, z))))
            (keysFold counts (zs.map (fun z => (w, z))) reps) := by
      unfold keysFold
      rw [List.foldl_append]
    rw [happ]
    by_cases hf : (letterPassRec counts w zs reps false).2 = true
    · rw [if_pos hf]
      rcases letterPassRec_found counts w zs reps false hf with h | h
      · cases h
      · obtain ⟨x, hx⟩ := List.length_eq_one.mp h
        have h1 : keysFold counts (zs.map (fun z => (w, z))) reps = [x] := by
          rw [← letterPassRec_fst counts w zs reps false]
          exact hx
        rw [h1, keysFold_singleton, hx]
    · rw [if_neg hf, ih, letterPassRec_fst counts w zs reps false]

theorem specNarrow_eq (counts : ℕ → ℕ → ℕ → ℕ) :
    ∀ (ks : List (ℕ × ℕ)) (reps : List ℕ),
      specNarrow counts ks reps = keysFold counts ks reps := by
  intro ks
  induction ks with
  | nil => intro reps; rfl
  | cons k ks ih =>
    intro reps
    simp only [specNarrow]
    by_cases h : (reps.length == 1) = true
    · rw [if_pos h]
      obtain ⟨x, hx⟩ := List.length_eq_one.mp (eq_of_beq h)
      rw [hx]
      exact (keysFold_singleton counts (k :: ks) x).symm
    · rw [if_neg h]
      rw [ih]
      unfold keysFold
      rw [List.foldl_cons]

theorem countsOf_pos_key (perms : List (List (ℕ × ℕ))) (oldLetters numbers : List ℕ)
    (r w z : ℕ) (h : countsOf perms oldLetters numbers r w z ≠ 0) :
    w ∈ allPermValues perms ∧ z ∈ sortedNumbersList numbers := by
  unfold countsOf repCount at h
  have hne : (oldLetters.zip numbers).filter
      (fun p => permGet (perms.getD r []) p.fst == some w && p.snd == z) ≠ [] := by
    intro hl
    rw [hl] at h
    exact h rfl
  obtain ⟨p, hp⟩ := List.exists_mem_of_ne_nil _ hne
  have hpm := List.mem_filter.mp hp
  have hcond := hpm.2
  rw [Bool.and_eq_true] at hcond
  have h1 : permGet (perms.getD r []) p.fst = some w := eq_of_beq hcond.1
  have h2 : p.snd = z := eq_of_beq hcond.2
  constructor
  · unfold permGet at h1
    cases hf : (perms.getD r []).find? (fun q => q.fst == p.fst) with
    | none =>
      rw [hf] at h1
      cases h1
    | some q =>
      rw [hf] at h1
      simp only [Option.map_some'] at h1
      rw [Option.some.injEq] at h1
      have hq : q ∈ perms.getD r [] := List.mem_of_find?_eq_some hf
      by_cases hr : r < perms.length
      · have hperm : perms.getD r [] ∈ perms := by
          rw [List.getD_eq_getElem?_getD, List.getElem?_eq_getElem hr]
          exact List.getElem_mem hr
        unfold allPermValues
        rw [Finset.mem_sort, List.mem_toFinset, List.mem_flatMap]
        exact ⟨perms.getD r [], hperm, by rw [← h1]; exact List.mem_map_of_mem _ hq⟩
      · have hdef : perms.getD r [] = [] := by
          rw [List.getD_eq_getElem?_getD, List.getElem?_eq_none (Nat.le_of_not_lt hr)]
          rfl
        rw [hdef] at hq
        cases hq
  · unfold sortedNumbersList
    rw [Finset.mem_sort, List.mem_toFinset, ← h2]
    exact (List.of_mem_zip hpm.1).2

theorem mem_repKeyList_iff (perm : List (ℕ × ℕ)) (oldLetters numbers : List ℕ)
    (k : ℕ × ℕ) :
    k ∈ repKeyList perm oldLetters numbers ↔
      repCount perm oldLetters numbers k.1 k.2 ≠ 0 := by
  unfold repKeyList repCount
  rw [List.mem_dedup, List.mem_filterMap]
  constructor
  · intro hx
    obtain ⟨p, hp, hpk⟩ := hx
    cases hg : permGet perm p.fst with
    | none =>
      rw [hg] at hpk
      cases hpk
    | some w =>
      rw [hg] at hpk
      simp only [Option.map_some', Option.some.injEq] at hpk
      intro hlen
      rw [List.length_eq_zero] at hlen
      have hpmem : p ∈ (oldLetters.zip numbers).filter
          (fun p => permGet perm p.fst == some k.1 && p.snd == k.2) := by
        refine List.mem_filter.mpr ⟨hp, ?_⟩
        rw [Bool.and_eq_true]
        constructor
        · rw [hg, ← hpk]
          exact beq_self_eq_true _
        · rw [← hpk]
          exact beq_self_eq_true _
      rw [hlen] at hpmem
      cases hpmem
  · intro h
    have hne : (oldLetters.zip numbers).filter
        (fun p => permGet perm p.fst == some k.1 && p.snd == k.2) ≠ [] := by
      intro hl
      rw [hl] at h
      exact h rfl
    obtain ⟨p, hp⟩ := List.exists_mem_of_ne_nil _ hne
    have hpm := List.mem_filter.mp hp
    have hcond := hpm.2
    rw [Bool.and_eq_true] at hcond
    refine ⟨p, hpm.1, ?_⟩
    rw [eq_of_beq hcond.1]
    simp only [Option.map_some']
    rw [eq_of_beq hcond.2]

theorem repKeyList_length_eq (permA permB : List (ℕ × ℕ)) (oldLetters numbers : List ℕ)
    (h : ∀ w z, repCount permA oldLetters numbers w z =
      repCount permB oldLetters numbers w z) :
    (repKeyList permA oldLetters numbers).length =
      (repKeyList permB oldLetters numbers).length := by
  have hA : (repKeyList permA oldLetters numbers).Nodup := List.nodup_dedup _
  have hB : (repKeyList permB oldLetters numbers).Nodup := List.nodup_dedup _
  have hset : (repKeyList permA oldLetters numbers).toFinset =
      (repKeyList permB oldLetters numbers).toFinset := by
    ext k
    rw [List.mem_toFinset, List.mem_toFinset, mem_repKeyList_iff, mem_repKeyList_iff,
      h k.1 k.2]
  rw [← List.toFinset_card_of_nodup hA, ← List.toFinset_card_of_nodup hB, hset]

theorem checkOneRep_none (perms : List (List (ℕ × ℕ))) (oldLetters numbers : List ℕ)
    (r0 r : ℕ)
    (h : ∀ w z, countsOf perms oldLetters numbers r w z =
      countsOf perms oldLetters numbers r0 w z) :
    checkOneRep perms oldLetters numbers r0 r = none := by
  unfold checkOneRep
  have hlen : (repKeyList (perms.getD r []) oldLetters numbers).length =
      (repKeyList (perms.getD r0 []) oldLetters numbers).length :=
    repKeyList_length_eq _ _ _ _ (fun w z => h w z)
  rw [if_neg (by rw [hlen]; exact fun hc => hc rfl)]
  rw [List.findSome?_eq_none_iff]
  intro k hk
  have hk0 : countsOf perms oldLetters numbers r0 k.1 k.2 ≠ 0 :=
    (mem_repKeyList_iff _ _ _ k).mp hk
  have heq := h k.1 k.2
  rw [if_neg (by rw [heq]; exact hk0)]
  rw [if_neg (by rw [heq]; exact fun hc => hc rfl)]

theorem counts_agree_all (perms : List (List (ℕ × ℕ))) (oldLetters numbers : List ℕ)
    (r0 r : ℕ)
    (hLZ : ∀ k ∈ (allPermValues perms).flatMap
        (fun w => (sortedNumbersList numbers).map (fun z => (w, z))),
      countsOf perms oldLetters numbers r k.1 k.2 =
        countsOf perms oldLetters numbers r0 k.1 k.2) :
    ∀ w z, countsOf perms oldLetters numbers r w z =
      countsOf perms oldLetters numbers r0 w z := by
  intro w z
  by_cases h1 : countsOf perms oldLetters numbers r w z = 0
  · by_cases h2 : countsOf perms oldLetters numbers r0 w z = 0
    · rw [h1, h2]
    · have hk := countsOf_pos_key perms oldLetters numbers r0 w z h2
      exact hLZ (w, z) (List.mem_flatMap.mpr ⟨w, hk.1, List.mem_map_of_mem _ hk.2⟩)
  · have hk := countsOf_pos_key perms oldLetters numbers r w z h1
    exact hLZ (w, z) (List.mem_flatMap.mpr ⟨w, hk.1, List.mem_map_of_mem _ hk.2⟩)

theorem specIdenticalCounts_of_agree (counts : ℕ → ℕ → ℕ → ℕ) (L Z : List ℕ)
    (r0 r : ℕ)
    (h : ∀ k ∈ L.flatMap (fun w => Z.map (fun z => (w, z))),
      counts r k.1 k.2 = counts r0 k.1 k.2) :
    specIdenticalCounts counts L Z r0 r = true := by
  unfold specIdenticalCounts
  rw [List.all_eq_true]
  intro k hk
  exact beq_iff_eq.mpr (h k hk)

/-- C5.  The ground-state selection of _find_wyckoff_ground_state equals
the selection the specification describes: iterative narrowing over
Wyckoff letters in alphabetical order and species in ascending atomic
number, discarding candidates that miss the maximum count at each key,
stopping at a unique survivor; with several survivors, all induce an
identical count multiset (else the ambiguity error) and the first is
chosen.  In particular the letter-granular stop of the source and the
immediate stop of the specification coincide, and the final consistency
check never fires on representations built from the same system. -/
theorem C5_ground_state_selection (perms : List (List (ℕ × ℕ)))
    (oldLetters numbers : List ℕ) :
    findBestRepresentation perms oldLetters numbers =
      specGroundState perms oldLetters numbers := by
  simp only [findBestRepresentation, specGroundState]
  rw [narrowLoop_eq, specNarrow_eq]
  cases hfin : keysFold (countsOf perms oldLetters numbers)
      ((allPermValues perms).flatMap
        (fun w => (sortedNumbersList numbers).map (fun z => (w, z))))
      (List.range perms.length) with
  | nil => rfl
  | cons r0 rest =>
    have hagree : ∀ s ∈ rest, ∀ w z,
        countsOf perms oldLetters numbers s w z =
          countsOf perms oldLetters numbers r0 w z := by
      intro s hs
      apply counts_agree_all perms oldLetters numbers r0 s
      intro k hk
      refine keysFold_agree (countsOf perms oldLetters numbers)
        ((allPermValues perms).flatMap
          (fun w => (sortedNumbersList numbers).map (fun z => (w, z))))
        (List.range perms.length) k hk s ?_ r0 ?_
      · rw [hfin]
        exact List.mem_cons_of_mem _ hs
      · rw [hfin]
        exact List.mem_cons_self _ _
    have hchk : rest.findSome? (checkOneRep perms oldLetters numbers r0) = none := by
      rw [List.findSome?_eq_none_iff]
      intro s hs
      exact checkOneRep_none perms oldLetters numbers r0 s (hagree s hs)
    have hall : rest.all (fun s => specIdenticalCounts
        (countsOf perms oldLetters numbers) (allPermValues perms)
        (sortedNumbersList numbers) r0 s) = true := by
      rw [List.all_eq_true]
      intro s hs
      exact specIdenticalCounts_of_agree _ _ _ r0 s
        (fun k hk => hagree s hs k.1 k.2)
    simp only [hchk, hall, if_true]

end Systax
